import Mathlib

/-!
# Verification of `createChatGPTContext.js`

A shallow embedding of the core of `src/createChatGPTContext.js` (binary
detection, whitespace collapsing, comment stripping, the two directory
traversals, tree formatting, and the top-level try/catch), together with
theorems settling the numbered claims C1-C10 about the program's
behaviour.

Conventions of the embedding:
* JS strings are modelled as Lean `String`/`List Char`.
* File byte buffers are `List Nat` (each element one byte, `0 ≤ b ≤ 255`
  for real buffers; the theorems hold for all `Nat` where stated).
* Fallible filesystem operations are modelled with `Option` fields in the
  filesystem tree and `Except String` results (a thrown JS exception is
  `.error`).
-/

namespace CtxTool

/-! ## Binary detector (`isBinaryFile`, source lines 80-100) -/

/-- The per-byte test from line 93 of the source:
`(byte < 7 || (byte > 14 && byte < 32)) && byte !== 9 && byte !== 10 && byte !== 13`. -/
def countsAsNonText (byte : Nat) : Bool :=
  (byte < 7 || (byte > 14 && byte < 32)) && byte != 9 && byte != 10 && byte != 13

/-- `maxBytes` from line 81 of the source. -/
def maxBytes : Nat := 8000

/-- `isBinaryFile` (lines 80-100) on the raw byte buffer of the file.

The source reads at most `maxBytes` bytes, returns `true` as soon as a
null byte is seen, and otherwise compares
`nonTextBytes / bytesToCheck > 0.3` in IEEE double arithmetic.  We model
the comparison exactly by `10 * nonTextBytes > 3 * bytesToCheck`.  This is
faithful: for `0 < d ≤ 8000` and `n ≤ d` the rational `n / d` either
equals `3 / 10` exactly (then the correctly rounded double quotient equals
the double literal `0.3`, and neither the float nor the rational
comparison holds) or differs from `3 / 10` by at least `1 / (10 * d) ≥
1 / 80000`, which dwarfs the rounding error of the two doubles, so the
float comparison agrees with the exact rational one.  For the empty file
the source computes `0 / 0 = NaN` and `NaN > 0.3` is `false`; here
`10 * 0 > 3 * 0` is likewise `false`. -/
def isBinaryFile (buffer : List Nat) : Bool :=
  if (buffer.take maxBytes).contains 0 then true
  else
    10 * (buffer.take maxBytes).countP (fun b => countsAsNonText b)
      > 3 * min buffer.length maxBytes

/-! ## Claims C3, C4, C5 -/

/-- **C3**: in `isBinaryFile`, with no null byte present, a byte `b` is
counted as non-text iff `b < 7` or `14 < b < 32`; every byte in `7..14`
and every byte `≥ 32` is never counted (the extra `!= 9/10/13` conjuncts
on line 93 are redundant because `9, 10, 13` all lie in `7..14`). -/
theorem claim3_nontext_byte_rule (b : Nat) :
    (countsAsNonText b = true ↔ (b < 7 ∨ (14 < b ∧ b < 32)))
      ∧ ((7 ≤ b ∧ b ≤ 14) ∨ 32 ≤ b → countsAsNonText b = false) := by
  constructor
  · simp only [countsAsNonText, Bool.and_eq_true, Bool.or_eq_true, decide_eq_true_eq,
      bne_iff_ne, ne_eq]
    omega
  · intro h
    simp only [countsAsNonText, Bool.and_eq_false_iff, Bool.or_eq_false_iff,
      decide_eq_false_iff_not, not_lt, bne_eq_false_iff_eq]
    omega

/-- Witness for C3 at concrete bytes: byte `9` (inside `7..14`) is not
counted, byte `35` (`≥ 32`) is not counted, byte `5` is counted. -/
theorem claim3_nontext_byte_rule_witness :
    countsAsNonText 9 = false ∧ countsAsNonText 35 = false ∧ countsAsNonText 5 = true :=
  ⟨(claim3_nontext_byte_rule 9).2 (Or.inl (by decide)),
   (claim3_nontext_byte_rule 35).2 (Or.inr (by decide)),
   (claim3_nontext_byte_rule 5).1.mpr (Or.inl (by decide))⟩

/-- **C4**: the empty file (0 bytes examined) is classified as text; the
division `nonTextBytes / bytesToCheck` is `0 / 0` there (`NaN` in the
source, and `NaN > 0.3` is `false`; total and `false` in this model). -/
theorem claim4_empty_file_is_text : isBinaryFile [] = false := by decide

/-- **C5**: with no null byte among the examined bytes, `isBinaryFile`
classifies the buffer binary exactly when the ratio of non-text bytes to
bytes examined is strictly greater than `0.30` (stated with exact rational
arithmetic, which agrees with the source's double comparison; see the
doc comment of `isBinaryFile`). -/
theorem claim5_strict_ratio_boundary (buffer : List Nat)
    (h : (buffer.take maxBytes).contains 0 = false) :
    isBinaryFile buffer = true ↔
      (3 : ℚ) / 10 <
        ((buffer.take maxBytes).countP (fun b => countsAsNonText b) : ℚ)
          / ((min buffer.length maxBytes : ℕ) : ℚ) := by
  have hlen : (buffer.take maxBytes).length = min buffer.length maxBytes := by
    rw [List.length_take, Nat.min_comm]
  simp only [isBinaryFile, h, Bool.false_eq_true, if_false, decide_eq_true_eq, gt_iff_lt]
  set k := (buffer.take maxBytes).countP (fun b => countsAsNonText b) with hk
  set n := min buffer.length maxBytes with hn
  have hcount : k ≤ n := by
    rw [hk, ← hlen]
    exact List.countP_le_length _
  rcases Nat.eq_zero_or_pos n with h0 | hpos
  · have hc0 : k = 0 := by omega
    rw [h0, hc0]
    norm_num
  · rw [div_lt_div_iff₀ (by norm_num) (by exact_mod_cast hpos)]
    constructor
    · intro hgt
      have h2 : ((3 * n : ℕ) : ℚ) < ((10 * k : ℕ) : ℚ) := by exact_mod_cast hgt
      push_cast at h2
      linarith
    · intro hlt
      have h2 : ((3 * n : ℕ) : ℚ) < ((k * 10 : ℕ) : ℚ) := by push_cast; linarith
      have h3 : 3 * n < k * 10 := by exact_mod_cast h2
      omega

/-- Witness for C5: a 10-byte buffer with 4 non-text bytes (40% > 30%) is
classified binary; one with 3 non-text bytes (exactly 30%) is text. -/
theorem claim5_strict_ratio_boundary_witness :
    isBinaryFile [1, 1, 1, 1, 65, 65, 65, 65, 65, 65] = true
      ∧ isBinaryFile [1, 1, 1, 65, 65, 65, 65, 65, 65, 65] = false := by
  have hc4 : (List.take maxBytes [1, 1, 1, 1, 65, 65, 65, 65, 65, 65]).countP
      (fun b => countsAsNonText b) = 4 := by decide
  have hm4 : min ([1, 1, 1, 1, 65, 65, 65, 65, 65, 65] : List ℕ).length maxBytes = 10 := by
    decide
  have hc3 : (List.take maxBytes [1, 1, 1, 65, 65, 65, 65, 65, 65, 65]).countP
      (fun b => countsAsNonText b) = 3 := by decide
  have hm3 : min ([1, 1, 1, 65, 65, 65, 65, 65, 65, 65] : List ℕ).length maxBytes = 10 := by
    decide
  constructor
  · exact (claim5_strict_ratio_boundary [1, 1, 1, 1, 65, 65, 65, 65, 65, 65]
      (by decide)).mpr (by rw [hc4, hm4]; norm_num)
  · cases hbv : isBinaryFile [1, 1, 1, 65, 65, 65, 65, 65, 65, 65] with
    | false => rfl
    | true =>
      exact absurd ((claim5_strict_ratio_boundary [1, 1, 1, 65, 65, 65, 65, 65, 65, 65]
        (by decide)).mp hbv) (by rw [hc3, hm3]; norm_num)

/-! ## Whitespace normalizer (`removeWhitespace`, source lines 150-152)

`removeWhitespace` is `text.replace(/\s+/g, ' ').trim()`. -/

/-- The character class `\s` of JS regexes (ECMAScript WhiteSpace together
with LineTerminator), which is also exactly the set trimmed by
`String.prototype.trim`. -/
def isJsWhitespace (c : Char) : Bool :=
  c == ' ' || c == '\t' || c == '\n' || c == '\r' ||
  c == '\x0b' || c == '\x0c' || c == '\u00a0' || c == '\u1680' ||
  ('\u2000' ≤ c && c ≤ '\u200a') || c == '\u2028' || c == '\u2029' ||
  c == '\u202f' || c == '\u205f' || c == '\u3000' || c == '\ufeff'

/-- `text.replace(/\s+/g, ' ')`: each maximal nonempty run of whitespace
characters becomes a single space.  The Boolean records whether the scanner
is currently inside a whitespace run (in which case further whitespace is
absorbed into the space already emitted for the run). -/
def collapseWsAux : Bool → List Char → List Char
  | _, [] => []
  | inRun, c :: rest =>
    if isJsWhitespace c then
      if inRun then collapseWsAux true rest
      else ' ' :: collapseWsAux true rest
    else c :: collapseWsAux false rest

/-- `.trim()`: strip JS whitespace from both ends. -/
def jsTrim (l : List Char) : List Char :=
  ((l.dropWhile isJsWhitespace).reverse.dropWhile isJsWhitespace).reverse

/-- `removeWhitespace` (lines 150-152). -/
def removeWhitespace (text : String) : String :=
  ⟨jsTrim (collapseWsAux false text.data)⟩

/-- No two adjacent whitespace characters anywhere in the list. -/
def NoWsRun (l : List Char) : Prop :=
  l.Chain' (fun a b => isJsWhitespace a = false ∨ isJsWhitespace b = false)

/-- Whether the first character (if any) is whitespace. -/
def headIsWs (l : List Char) : Bool :=
  match l with
  | [] => false
  | c :: _ => isJsWhitespace c

theorem collapseWsAux_headIsWs (l : List Char) :
    headIsWs (collapseWsAux true l) = false := by
  induction l with
  | nil => rfl
  | cons c rest ih =>
    rw [collapseWsAux]
    by_cases hc : isJsWhitespace c = true
    · simpa [hc] using ih
    · simp only [Bool.not_eq_true] at hc
      simp [hc, headIsWs]

theorem collapseWsAux_true_of_headIsWs (l : List Char) (h : headIsWs l = false) :
    collapseWsAux true l = collapseWsAux false l := by
  cases l with
  | nil => rfl
  | cons c rest =>
    simp only [headIsWs] at h
    simp [collapseWsAux, h]

theorem collapseWsAux_noWsRun (l : List Char) : ∀ b, NoWsRun (collapseWsAux b l) := by
  induction l with
  | nil => intro b; exact List.chain'_nil
  | cons c rest ih =>
    intro b
    rw [collapseWsAux]
    by_cases hc : isJsWhitespace c = true
    · cases b with
      | true => simpa [hc] using ih true
      | false =>
        simp only [hc, if_true]
        refine List.chain'_cons'.mpr ⟨?_, ih true⟩
        intro y hy
        right
        have hh := collapseWsAux_headIsWs rest
        cases hres : collapseWsAux true rest with
        | nil => rw [hres] at hy; simp at hy
        | cons z zs =>
          rw [hres] at hy hh
          simp only [List.head?] at hy
          simp only [headIsWs] at hh
          cases hy
          exact hh
    · simp only [Bool.not_eq_true] at hc
      simp only [hc, Bool.false_eq_true, if_false]
      refine List.chain'_cons'.mpr ⟨?_, ih false⟩
      intro y _
      left
      exact hc

theorem collapseWsAux_mem_ws_eq_space (l : List Char) :
    ∀ b c, c ∈ collapseWsAux b l → isJsWhitespace c = true → c = ' ' := by
  induction l with
  | nil => intro b c hc; rw [collapseWsAux] at hc; simp at hc
  | cons d rest ih =>
    intro b c hc hws
    rw [collapseWsAux] at hc
    by_cases hd : isJsWhitespace d = true
    · cases b with
      | true =>
        rw [if_pos hd, if_pos rfl] at hc
        exact ih true c hc hws
      | false =>
        rw [if_pos hd] at hc
        simp only [Bool.false_eq_true, if_false, List.mem_cons] at hc
        rcases hc with rfl | hc
        · rfl
        · exact ih true c hc hws
    · simp only [Bool.not_eq_true] at hd
      rw [hd] at hc
      simp only [Bool.false_eq_true, if_false, List.mem_cons] at hc
      rcases hc with rfl | hc
      · rw [hd] at hws; cases hws
      · exact ih false c hc hws

theorem headIsWs_dropWhile (l : List Char) :
    headIsWs (l.dropWhile isJsWhitespace) = false := by
  induction l with
  | nil => rfl
  | cons c rest ih =>
    rw [List.dropWhile]
    by_cases hc : isJsWhitespace c = true
    · simpa [hc] using ih
    · simp only [Bool.not_eq_true] at hc
      simp [hc, headIsWs]

/-- The relation of `NoWsRun` is symmetric, so reversal preserves it. -/
theorem noWsRun_reverse (l : List Char) (h : NoWsRun l) : NoWsRun l.reverse := by
  rw [NoWsRun, List.chain'_reverse]
  exact h.imp (fun a b hab => hab.symm)

theorem noWsRun_jsTrim (l : List Char) (h : NoWsRun l) : NoWsRun (jsTrim l) := by
  rw [jsTrim]
  refine noWsRun_reverse _ ?_
  refine List.Chain'.suffix ?_ (List.dropWhile_suffix _)
  refine noWsRun_reverse _ ?_
  exact List.Chain'.suffix h (List.dropWhile_suffix _)

theorem mem_jsTrim (l : List Char) (c : Char) (h : c ∈ jsTrim l) : c ∈ l := by
  rw [jsTrim, List.mem_reverse] at h
  have h1 := (List.dropWhile_suffix (l := (l.dropWhile isJsWhitespace).reverse)
    isJsWhitespace).sublist.mem h
  rw [List.mem_reverse] at h1
  exact (List.dropWhile_suffix isJsWhitespace).sublist.mem h1

theorem head?_jsTrim_not_ws (l : List Char) (c : Char)
    (h : (jsTrim l).head? = some c) : isJsWhitespace c = false := by
  rw [jsTrim, List.head?_reverse] at h
  -- the last element of `dropWhile ws y` (for `y = (dropWhile ws l).reverse`)
  -- is the last element of `y`, i.e. the head of `dropWhile ws l`.
  rcases List.dropWhile_suffix (l := (l.dropWhile isJsWhitespace).reverse) isJsWhitespace
    with ⟨t, ht⟩
  have hne : (l.dropWhile isJsWhitespace).reverse.dropWhile isJsWhitespace ≠ [] := by
    intro h0
    rw [h0] at h
    simp at h
  have hlast : ((l.dropWhile isJsWhitespace).reverse).getLast? = some c := by
    rw [← ht, List.getLast?_append_of_ne_nil _ hne, h]
  rw [← List.head?_reverse, List.reverse_reverse] at hlast
  have hh := headIsWs_dropWhile l
  cases hdw : l.dropWhile isJsWhitespace with
  | nil => rw [hdw] at hlast; cases hlast
  | cons z zs =>
    rw [hdw] at hlast hh
    simp only [List.head?] at hlast
    cases hlast
    simpa [headIsWs] using hh

theorem getLast?_jsTrim_not_ws (l : List Char) (c : Char)
    (h : (jsTrim l).getLast? = some c) : isJsWhitespace c = false := by
  rw [jsTrim, ← List.head?_reverse, List.reverse_reverse] at h
  have hh := headIsWs_dropWhile (l := (l.dropWhile isJsWhitespace).reverse)
  cases hdw : (l.dropWhile isJsWhitespace).reverse.dropWhile isJsWhitespace with
  | nil => rw [hdw] at h; cases h
  | cons z zs =>
    rw [hdw] at h hh
    simp only [List.head?] at h
    cases h
    simpa [headIsWs] using hh

theorem collapseWsAux_eq_self (l : List Char) (hrun : NoWsRun l)
    (hsp : ∀ c ∈ l, isJsWhitespace c = true → c = ' ') :
    collapseWsAux false l = l := by
  induction l with
  | nil => rfl
  | cons c rest ih =>
    rw [collapseWsAux]
    rcases List.chain'_cons'.mp hrun with ⟨hhd, htl⟩
    by_cases hc : isJsWhitespace c = true
    · have hcs : c = ' ' := hsp c (List.mem_cons_self _ _) hc
      have hrest : headIsWs rest = false := by
        cases rest with
        | nil => rfl
        | cons z zs =>
          rcases hhd z (by simp) with hz | hz
          · rw [hc] at hz; cases hz
          · simpa [headIsWs] using hz
      rw [if_pos hc, if_neg (by simp), collapseWsAux_true_of_headIsWs rest hrest,
        ih htl (fun d hd => hsp d (List.mem_cons_of_mem _ hd)), hcs]
    · simp only [Bool.not_eq_true] at hc
      rw [hc]
      simp only [Bool.false_eq_true, if_false]
      rw [ih htl (fun d hd => hsp d (List.mem_cons_of_mem _ hd))]

theorem dropWhile_eq_self_of_headIsWs (l : List Char) (h : headIsWs l = false) :
    l.dropWhile isJsWhitespace = l := by
  cases l with
  | nil => rfl
  | cons c rest =>
    simp only [headIsWs] at h
    simp [List.dropWhile, h]

theorem jsTrim_eq_self (l : List Char)
    (h1 : ∀ c, l.head? = some c → isJsWhitespace c = false)
    (h2 : ∀ c, l.getLast? = some c → isJsWhitespace c = false) :
    jsTrim l = l := by
  have hhd : headIsWs l = false := by
    cases l with
    | nil => rfl
    | cons c rest => simpa [headIsWs] using h1 c rfl
  rw [jsTrim, dropWhile_eq_self_of_headIsWs l hhd]
  have hrev : headIsWs l.reverse = false := by
    cases hr : l.reverse with
    | nil => rfl
    | cons c rest =>
      have : l.getLast? = some c := by
        rw [← List.head?_reverse, hr]; rfl
      simpa [headIsWs] using h2 c this
  rw [dropWhile_eq_self_of_headIsWs l.reverse hrev, List.reverse_reverse]

/-- **C9**: `removeWhitespace` is idempotent, its output has no run of two
or more whitespace characters, and no leading or trailing whitespace. -/
theorem claim9_removeWhitespace_idempotent (s : String) :
    removeWhitespace (removeWhitespace s) = removeWhitespace s
      ∧ NoWsRun (removeWhitespace s).data
      ∧ (∀ c, (removeWhitespace s).data.head? = some c → isJsWhitespace c = false)
      ∧ (∀ c, (removeWhitespace s).data.getLast? = some c → isJsWhitespace c = false) := by
  have hdata : (removeWhitespace s).data = jsTrim (collapseWsAux false s.data) := rfl
  have hrun : NoWsRun (removeWhitespace s).data := by
    rw [hdata]
    exact noWsRun_jsTrim _ (collapseWsAux_noWsRun s.data false)
  have hhead : ∀ c, (removeWhitespace s).data.head? = some c → isJsWhitespace c = false := by
    intro c hc
    rw [hdata] at hc
    exact head?_jsTrim_not_ws _ c hc
  have hlast : ∀ c, (removeWhitespace s).data.getLast? = some c → isJsWhitespace c = false := by
    intro c hc
    rw [hdata] at hc
    exact getLast?_jsTrim_not_ws _ c hc
  refine ⟨?_, hrun, hhead, hlast⟩
  have hsp : ∀ c ∈ (removeWhitespace s).data, isJsWhitespace c = true → c = ' ' := by
    intro c hc hws
    rw [hdata] at hc
    exact collapseWsAux_mem_ws_eq_space s.data false c (mem_jsTrim _ c hc) hws
  have hcollapse : collapseWsAux false (removeWhitespace s).data = (removeWhitespace s).data :=
    collapseWsAux_eq_self _ hrun hsp
  have htrim : jsTrim (removeWhitespace s).data = (removeWhitespace s).data :=
    jsTrim_eq_self _ hhead hlast
  show (⟨jsTrim (collapseWsAux false (removeWhitespace s).data)⟩ : String) = removeWhitespace s
  rw [hcollapse, htrim]

/-- Witness for C9 at the concrete input `" a  b "` (which normalizes to
`"a b"`). -/
theorem claim9_removeWhitespace_idempotent_witness :
    removeWhitespace (removeWhitespace " a  b ") = removeWhitespace " a  b "
      ∧ isJsWhitespace 'a' = false :=
  ⟨(claim9_removeWhitespace_idempotent " a  b ").1,
   (claim9_removeWhitespace_idempotent " a  b ").2.2.1 'a' (by decide)⟩

/-! ## Comment stripper (`removeComments`, source lines 160-186)

The source applies five global regex replacements in order:
1. `stringPattern = (['"`])(?:(?!\1|\\).|\\.)*\1` — replace each string
   literal with `__PRESERVED__<n>__`, pushing the match onto
   `preservedItems`;
2. `regexPattern = \/(?!\*)[^/\\\n]+\/[gimsuy]*` — the same for regex
   literals (pushing onto the same array);
3. `singleLineCommentPattern = \/\/.*(?=[\n\r]|$)` — delete;
4. `multiLineCommentPattern = \/\*[\s\S]*?\*\//` — delete;
5. `__PRESERVED__(\d+)__` — replace by `preservedItems[Number(index)]`
   (the string `"undefined"` when the index is out of range).

Each pattern is embedded as a deterministic matcher on the suffix that
starts at the scan position.  Determinism is justified pattern by pattern:
in the string pattern the alternation `(?:(?!\1|\\).|\\.)` is decided by
the first character, `.` never matches a line terminator, and the greedy
star can neither skip an unescaped closing quote nor recover anything by
backtracking (every backtrack position starts with a character that is not
the quote); the regex-literal body `[^/\\\n]+` is a maximal run ended by
the mandatory `/` (a character class, so it admits `\r`, U+2028 and
U+2029); `.` matches no line terminator (`\n`, `\r`, U+2028, U+2029), so
the greedy `.*` run is the maximal run of non-terminators, and the
lookahead `(?=[\n\r]|$)` then either holds — at the end or before `\n` or
`\r` — or, when the run stops at U+2028/U+2029, fails at every
backtracking position as well (each earlier position is followed by a run
character), so the whole single-line-comment match fails; `[\s\S]*?` is
non-greedy, so a block comment ends at the first `*/`; and `(\d+)` is a
maximal digit run followed by the mandatory `__`.  A global `replace`
scans left to right, resumes immediately after each match, and never
rescans replacement text.

The drivers (`protectAll`, `stripAll`, `restoreAll`) are written with an
explicit step budget (`fuel`), instantiated with the text length; every
match consumes at least one character (the `…_length` lemmas), so the
budget is never exhausted, which the `…_congr` lemmas make precise.  This
keeps all definitions structurally recursive and hence executable by the
kernel. -/

/-- The LINE SEPARATOR character U+2028, an ECMAScript LineTerminator. -/
def lineSepChar : Char := Char.ofNat 8232

/-- The PARAGRAPH SEPARATOR character U+2029, an ECMAScript
LineTerminator. -/
def paraSepChar : Char := Char.ofNat 8233

/-- Characters matched by `.`: anything but the four ECMAScript
LineTerminators `\n`, `\r`, U+2028 and U+2029. -/
def notLineTerm (x : Char) : Bool :=
  !(x == '\n' || x == '\r' || x == lineSepChar || x == paraSepChar)

/-- Scan the body of a string literal opened with quote `q`, returning the
consumed characters (up to and including the closing quote) and the rest.
Both body alternatives end in `.`, which matches no line terminator, so an
unescaped line terminator, an escaped line terminator, or a trailing
backslash makes the match fail.  The one-element case folds together:
close if the char is the quote, otherwise every continuation needs at
least one more character. -/
def strScan (q : Char) : List Char → Option (List Char × List Char)
  | [] => none
  | [c] => if c = q then some ([c], []) else none
  | c :: d :: rest2 =>
    if c = q then some ([c], d :: rest2)
    else if c = '\\' then
      if notLineTerm d then (strScan q rest2).map (fun p => (c :: d :: p.1, p.2))
      else none
    else if notLineTerm c then (strScan q (d :: rest2)).map (fun p => (c :: p.1, p.2))
    else none

/-- The string delimiters `'`, `\"` and the backtick (via code points). -/
def isQuote (c : Char) : Bool :=
  c == Char.ofNat 39 || c == '"' || c == Char.ofNat 96

/-- One match attempt of `stringPattern` at the current position. -/
def matchStringLit : List Char → Option (List Char × List Char)
  | [] => none
  | c :: rest =>
    if isQuote c then (strScan c rest).map (fun p => (c :: p.1, p.2))
    else none

/-- The regex-literal flag letters `[gimsuy]`. -/
def isRegexFlag (c : Char) : Bool :=
  c == 'g' || c == 'i' || c == 'm' || c == 's' || c == 'u' || c == 'y'

/-- A character ending the body class `[^/\\\n]` of `regexPattern`. -/
def endsRegexBody (c : Char) : Bool := c == '/' || c == '\\' || c == '\n'

/-- One match attempt of `regexPattern` at the current position: `/`, not
followed by `*`, a nonempty run of body characters, a closing `/`, then
greedy flags. -/
def matchRegexLit : List Char → Option (List Char × List Char)
  | [] => none
  | [_] => none
  | c :: d :: rest1 =>
    if c = '/' then
      if d = '*' then none
      else
        let body := (d :: rest1).takeWhile (fun x => !endsRegexBody x)
        let after := (d :: rest1).dropWhile (fun x => !endsRegexBody x)
        if body.isEmpty then none
        else if after.head? = some '/' then
          some ('/' :: body ++ '/' :: after.tail.takeWhile isRegexFlag,
            after.tail.dropWhile isRegexFlag)
        else none
    else none

/-- The lookahead `(?=[\n\r]|$)`: holds at the end of the input or before
`\n` or `\r`; it fails before U+2028/U+2029, where the greedy `.*` run may
also stop. -/
def lineLookahead : List Char → Bool
  | [] => true
  | c :: _ => c == '\n' || c == '\r'

/-- One match attempt of `singleLineCommentPattern`: `//`, then the greedy
`.*` run of non-line-terminator characters, which must satisfy the
lookahead `(?=[\n\r]|$)` where it stops.  When the run stops at
U+2028/U+2029 the lookahead fails there and at every backtracking
position (each earlier position is followed by a run character, which is
neither `\n` nor `\r` nor the end), so the whole match fails. -/
def matchLineComment : List Char → Option (List Char × List Char)
  | [] => none
  | [_] => none
  | c :: d :: rest =>
    if c = '/' ∧ d = '/' then
      if lineLookahead (rest.dropWhile notLineTerm) then
        some ('/' :: '/' :: rest.takeWhile notLineTerm, rest.dropWhile notLineTerm)
      else none
    else none

/-- Scan up to and including the first `*/`. -/
def blockScan : List Char → Option (List Char × List Char)
  | [] => none
  | [_] => none
  | c :: d :: rest =>
    if c = '*' ∧ d = '/' then some (['*', '/'], rest)
    else (blockScan (d :: rest)).map (fun p => (c :: p.1, p.2))

/-- One match attempt of `multiLineCommentPattern` (`[\s\S]*?` is
non-greedy, so the comment ends at the first `*/`). -/
def matchBlockComment : List Char → Option (List Char × List Char)
  | [] => none
  | [_] => none
  | c :: d :: rest =>
    if c = '/' ∧ d = '*' then (blockScan rest).map (fun p => ('/' :: '*' :: p.1, p.2))
    else none

/-- The `Number(index)` conversion of a captured digit string. -/
def digitsToNat (ds : List Char) : Nat :=
  ds.foldl (fun a c => 10 * a + (c.toNat - 48)) 0

/-- `stripLit pat l` returns `some rest` when `l = pat ++ rest`. -/
def stripLit : List Char → List Char → Option (List Char)
  | [], l => some l
  | _ :: _, [] => none
  | p :: ps, c :: rest => if c = p then stripLit ps rest else none

/-- The literal `__PRESERVED__` that opens a placeholder token. -/
def preservedMark : List Char :=
  ['_', '_', 'P', 'R', 'E', 'S', 'E', 'R', 'V', 'E', 'D', '_', '_']

/-- The two `__` that close a placeholder token. -/
def afterDigits : List Char → Option (List Char)
  | [] => none
  | [_] => none
  | u1 :: u2 :: r => if u1 = '_' ∧ u2 = '_' then some r else none

/-- One match attempt of `__PRESERVED__(\d+)__` at the current position,
returning the captured index and the rest. -/
def matchPlaceholderTok (l : List Char) : Option (Nat × List Char) :=
  match stripLit preservedMark l with
  | none => none
  | some rest =>
    let ds := rest.takeWhile Char.isDigit
    if ds.isEmpty then none
    else
      match afterDigits (rest.dropWhile Char.isDigit) with
      | none => none
      | some r => some (digitsToNat ds, r)

/-- The placeholder text `__PRESERVED__<n>__` inserted for item `n`. -/
def mkPlaceholder (n : Nat) : List Char :=
  preservedMark ++ (toString n).data ++ ['_', '_']

theorem strScan_length (q : Char) :
    ∀ (l : List Char) (m r : List Char), strScan q l = some (m, r) → r.length ≤ l.length
  | [], m, r, h => by simp [strScan] at h
  | [c], m, r, h => by
    rw [strScan] at h
    split at h
    · cases h; simp
    · cases h
  | c :: d :: rest2, m, r, h => by
    rw [strScan] at h
    split at h
    · cases h; simp
    · split at h
      · split at h
        · cases hs : strScan q rest2 with
          | none => rw [hs] at h; cases h
          | some p =>
            rw [hs] at h
            cases h
            have := strScan_length q rest2 p.1 p.2 hs
            simp only [List.length_cons]
            omega
        · cases h
      · split at h
        · cases hs : strScan q (d :: rest2) with
          | none => rw [hs] at h; cases h
          | some p =>
            rw [hs] at h
            cases h
            have := strScan_length q (d :: rest2) p.1 p.2 hs
            simp only [List.length_cons] at this ⊢
            omega
        · cases h

theorem matchStringLit_length (l : List Char) (m r : List Char)
    (h : matchStringLit l = some (m, r)) : r.length < l.length := by
  cases l with
  | nil => simp [matchStringLit] at h
  | cons c rest =>
    rw [matchStringLit] at h
    split at h
    · cases hs : strScan c rest with
      | none => rw [hs] at h; cases h
      | some p =>
        rw [hs] at h
        cases h
        have := strScan_length c rest p.1 p.2 hs
        simp only [List.length_cons]
        omega
    · cases h

theorem matchRegexLit_length (l : List Char) (m r : List Char)
    (h : matchRegexLit l = some (m, r)) : r.length < l.length := by
  match l with
  | [] => simp [matchRegexLit] at h
  | [c] => simp [matchRegexLit] at h
  | c :: d :: rest1 =>
    rw [matchRegexLit] at h
    dsimp only at h
    split at h
    · split at h
      · cases h
      · split at h
        · cases h
        · split at h
          · rename_i hne hhd
            cases h
            set after := (d :: rest1).dropWhile (fun x => !endsRegexBody x) with hafter
            have h1 : after.length ≤ (d :: rest1).length :=
              (List.dropWhile_suffix _).sublist.length_le
            have h2 : (after.tail.dropWhile isRegexFlag).length ≤ after.tail.length :=
              (List.dropWhile_suffix _).sublist.length_le
            have h3 : after.tail.length + 1 = after.length := by
              cases ha : after with
              | nil => rw [ha] at hhd; cases hhd
              | cons e r2 => simp
            simp only [List.length_cons] at h1 ⊢
            omega
          · cases h
    · cases h

theorem matchLineComment_length (l : List Char) (m r : List Char)
    (h : matchLineComment l = some (m, r)) : r.length < l.length := by
  match l with
  | [] => simp [matchLineComment] at h
  | [c] => simp [matchLineComment] at h
  | c :: d :: rest =>
    rw [matchLineComment] at h
    split at h
    · split at h
      · cases h
        have h2 : (rest.dropWhile notLineTerm).length ≤ rest.length :=
          (List.dropWhile_suffix _).sublist.length_le
        simp only [List.length_cons]
        omega
      · cases h
    · cases h

theorem blockScan_length :
    ∀ (l : List Char) (m r : List Char), blockScan l = some (m, r) → r.length ≤ l.length
  | [], m, r, h => by simp [blockScan] at h
  | [c], m, r, h => by simp [blockScan] at h
  | c :: d :: rest, m, r, h => by
    rw [blockScan] at h
    split at h
    · cases h
      simp only [List.length_cons]
      omega
    · cases hs : blockScan (d :: rest) with
      | none => rw [hs] at h; cases h
      | some p =>
        rw [hs] at h
        cases h
        have := blockScan_length (d :: rest) p.1 p.2 hs
        simp only [List.length_cons] at this ⊢
        omega

theorem matchBlockComment_length (l : List Char) (m r : List Char)
    (h : matchBlockComment l = some (m, r)) : r.length < l.length := by
  match l with
  | [] => simp [matchBlockComment] at h
  | [c] => simp [matchBlockComment] at h
  | c :: d :: rest =>
    rw [matchBlockComment] at h
    split at h
    · cases hs : blockScan rest with
      | none => rw [hs] at h; cases h
      | some p =>
        rw [hs] at h
        cases h
        have := blockScan_length rest p.1 p.2 hs
        simp only [List.length_cons]
        omega
    · cases h

theorem stripLit_length (pat : List Char) :
    ∀ (l r : List Char), stripLit pat l = some r → r.length + pat.length = l.length := by
  induction pat with
  | nil =>
    intro l r h
    rw [stripLit] at h
    cases h
    simp
  | cons p ps ih =>
    intro l r h
    cases l with
    | nil => rw [stripLit] at h; cases h
    | cons c rest =>
      rw [stripLit] at h
      split at h
      · have := ih rest r h
        simp only [List.length_cons]
        omega
      · cases h

theorem afterDigits_length (l r : List Char) (h : afterDigits l = some r) :
    r.length + 2 = l.length := by
  match l with
  | [] => simp [afterDigits] at h
  | [c] => simp [afterDigits] at h
  | u1 :: u2 :: rest =>
    rw [afterDigits] at h
    split at h
    · cases h; simp
    · cases h

theorem matchPlaceholderTok_length (l : List Char) (n : Nat) (r : List Char)
    (h : matchPlaceholderTok l = some (n, r)) : r.length < l.length := by
  rw [matchPlaceholderTok] at h
  cases hs : stripLit preservedMark l with
  | none => rw [hs] at h; cases h
  | some rest =>
    rw [hs] at h
    simp only at h
    split at h
    · cases h
    · cases ha : afterDigits (rest.dropWhile Char.isDigit) with
      | none => rw [ha] at h; cases h
      | some r2 =>
        rw [ha] at h
        cases h
        have h1 := stripLit_length preservedMark l rest hs
        have h2 := afterDigits_length _ _ ha
        have h3 : (rest.dropWhile Char.isDigit).length ≤ rest.length :=
          (List.dropWhile_suffix _).sublist.length_le
        simp only [preservedMark, List.length_cons, List.length_nil] at h1
        omega

/-! Drivers: global-replace scans. -/

/-- The global-replace scan of the two protection passes: at each
position try the matcher; on a match push the matched text onto the item
list, emit `__PRESERVED__<index>__`, and resume after the match; otherwise
copy one character. -/
def protectAllFuel (f : List Char → Option (List Char × List Char)) :
    Nat → List Char → List (List Char) → List Char × List (List Char)
  | 0, l, items => (l, items)
  | _ + 1, [], items => ([], items)
  | fuel + 1, c :: rest, items =>
    match f (c :: rest) with
    | some (m, r) =>
      let res := protectAllFuel f fuel r (items ++ [m])
      (mkPlaceholder items.length ++ res.1, res.2)
    | none =>
      let res := protectAllFuel f fuel rest items
      (c :: res.1, res.2)

def protectAll (f : List Char → Option (List Char × List Char))
    (l : List Char) (items : List (List Char)) : List Char × List (List Char) :=
  protectAllFuel f l.length l items

theorem protectAllFuel_congr (f : List Char → Option (List Char × List Char))
    (hf : ∀ l m r, f l = some (m, r) → r.length < l.length) :
    ∀ (fuel : Nat) (l : List Char) (items : List (List Char)), l.length ≤ fuel →
      protectAllFuel f fuel l items = protectAllFuel f l.length l items := by
  intro fuel
  induction fuel using Nat.strong_induction_on with
  | _ fuel ih =>
    intro l items hl
    cases fuel with
    | zero =>
      have : l = [] := List.length_eq_zero.mp (Nat.le_zero.mp hl)
      subst this
      rfl
    | succ fuel =>
      cases l with
      | nil => rfl
      | cons c rest =>
        simp only [List.length_cons] at hl ⊢
        rw [protectAllFuel]
        conv_rhs => rw [protectAllFuel]
        cases hm : f (c :: rest) with
        | none =>
          simp only
          rw [ih fuel (Nat.lt_succ_self _) rest items (by omega),
            ih rest.length (by omega) rest items (Nat.le_refl _)]
        | some p =>
          simp only
          have hr := hf _ _ _ hm
          simp only [List.length_cons] at hr
          rw [ih fuel (Nat.lt_succ_self _) p.2 (items ++ [p.1]) (by omega),
            ih rest.length (by omega) p.2 (items ++ [p.1]) (by omega)]

theorem protectAll_nil (f : List Char → Option (List Char × List Char))
    (items : List (List Char)) : protectAll f [] items = ([], items) := rfl

theorem protectAll_cons (f : List Char → Option (List Char × List Char))
    (hf : ∀ l m r, f l = some (m, r) → r.length < l.length)
    (c : Char) (rest : List Char) (items : List (List Char)) :
    protectAll f (c :: rest) items =
      match f (c :: rest) with
      | some (m, r) =>
        let res := protectAll f r (items ++ [m])
        (mkPlaceholder items.length ++ res.1, res.2)
      | none =>
        let res := protectAll f rest items
        (c :: res.1, res.2) := by
  rw [protectAll]
  simp only [List.length_cons]
  rw [protectAllFuel]
  cases hm : f (c :: rest) with
  | none => rfl
  | some p =>
    simp only
    have hr := hf _ _ _ hm
    simp only [List.length_cons] at hr
    rw [protectAllFuel_congr f hf rest.length p.2 (items ++ [p.1]) (by omega)]
    rfl

/-- The global-replace scan of the two comment-removal passes
(replacement is empty). -/
def stripAllFuel (f : List Char → Option (List Char × List Char)) :
    Nat → List Char → List Char
  | 0, l => l
  | _ + 1, [] => []
  | fuel + 1, c :: rest =>
    match f (c :: rest) with
    | some (_, r) => stripAllFuel f fuel r
    | none => c :: stripAllFuel f fuel rest

def stripAll (f : List Char → Option (List Char × List Char)) (l : List Char) : List Char :=
  stripAllFuel f l.length l

theorem stripAllFuel_congr (f : List Char → Option (List Char × List Char))
    (hf : ∀ l m r, f l = some (m, r) → r.length < l.length) :
    ∀ (fuel : Nat) (l : List Char), l.length ≤ fuel →
      stripAllFuel f fuel l = stripAllFuel f l.length l := by
  intro fuel
  induction fuel using Nat.strong_induction_on with
  | _ fuel ih =>
    intro l hl
    cases fuel with
    | zero =>
      have : l = [] := List.length_eq_zero.mp (Nat.le_zero.mp hl)
      subst this
      rfl
    | succ fuel =>
      cases l with
      | nil => rfl
      | cons c rest =>
        simp only [List.length_cons] at hl ⊢
        rw [stripAllFuel]
        conv_rhs => rw [stripAllFuel]
        cases hm : f (c :: rest) with
        | none =>
          simp only
          rw [ih fuel (Nat.lt_succ_self _) rest (by omega),
            ih rest.length (by omega) rest (Nat.le_refl _)]
        | some p =>
          simp only
          have hr := hf _ _ _ hm
          simp only [List.length_cons] at hr
          rw [ih fuel (Nat.lt_succ_self _) p.2 (by omega),
            ih rest.length (by omega) p.2 (by omega)]

theorem stripAll_nil (f : List Char → Option (List Char × List Char)) :
    stripAll f [] = [] := rfl

theorem stripAll_cons (f : List Char → Option (List Char × List Char))
    (hf : ∀ l m r, f l = some (m, r) → r.length < l.length)
    (c : Char) (rest : List Char) :
    stripAll f (c :: rest) =
      match f (c :: rest) with
      | some (_, r) => stripAll f r
      | none => c :: stripAll f rest := by
  rw [stripAll]
  simp only [List.length_cons]
  rw [stripAllFuel]
  cases hm : f (c :: rest) with
  | none => rfl
  | some p =>
    simp only
    have hr := hf _ _ _ hm
    simp only [List.length_cons] at hr
    rw [stripAllFuel_congr f hf rest.length p.2 (by omega)]
    rfl

/-- JS coerces `preservedItems[i]` for an out-of-range `i` to the string
`\"undefined\"` when the replacement callback returns it. -/
def undefinedText : List Char := ['u', 'n', 'd', 'e', 'f', 'i', 'n', 'e', 'd']

/-- The restore pass: replace every `__PRESERVED__(\d+)__` by
`preservedItems[Number(index)]` in a single left-to-right scan
(replacement text is not rescanned). -/
def restoreAllFuel (items : List (List Char)) : Nat → List Char → List Char
  | 0, l => l
  | _ + 1, [] => []
  | fuel + 1, c :: rest =>
    match matchPlaceholderTok (c :: rest) with
    | some (idx, r) => items.getD idx undefinedText ++ restoreAllFuel items fuel r
    | none => c :: restoreAllFuel items fuel rest

def restoreAll (items : List (List Char)) (l : List Char) : List Char :=
  restoreAllFuel items l.length l

theorem restoreAllFuel_congr (items : List (List Char)) :
    ∀ (fuel : Nat) (l : List Char), l.length ≤ fuel →
      restoreAllFuel items fuel l = restoreAllFuel items l.length l := by
  intro fuel
  induction fuel using Nat.strong_induction_on with
  | _ fuel ih =>
    intro l hl
    cases fuel with
    | zero =>
      have : l = [] := List.length_eq_zero.mp (Nat.le_zero.mp hl)
      subst this
      rfl
    | succ fuel =>
      cases l with
      | nil => rfl
      | cons c rest =>
        simp only [List.length_cons] at hl ⊢
        rw [restoreAllFuel]
        conv_rhs => rw [restoreAllFuel]
        cases hm : matchPlaceholderTok (c :: rest) with
        | none =>
          simp only
          rw [ih fuel (Nat.lt_succ_self _) rest (by omega),
            ih rest.length (by omega) rest (Nat.le_refl _)]
        | some p =>
          simp only
          have hr := matchPlaceholderTok_length _ _ _ hm
          simp only [List.length_cons] at hr
          rw [ih fuel (Nat.lt_succ_self _) p.2 (by omega),
            ih rest.length (by omega) p.2 (by omega)]

theorem restoreAll_nil (items : List (List Char)) : restoreAll items [] = [] := rfl

theorem restoreAll_cons (items : List (List Char)) (c : Char) (rest : List Char) :
    restoreAll items (c :: rest) =
      match matchPlaceholderTok (c :: rest) with
      | some (idx, r) => items.getD idx undefinedText ++ restoreAll items r
      | none => c :: restoreAll items rest := by
  rw [restoreAll]
  simp only [List.length_cons]
  rw [restoreAllFuel]
  cases hm : matchPlaceholderTok (c :: rest) with
  | none => rfl
  | some p =>
    simp only
    have hr := matchPlaceholderTok_length _ _ _ hm
    simp only [List.length_cons] at hr
    rw [restoreAllFuel_congr items rest.length p.2 (by omega)]
    rfl

/-- `removeComments` (lines 160-186): protect strings, protect regex
literals (same item array), delete single-line comments, delete block
comments, restore placeholders. -/
def removeCommentsCore (text : List Char) : List Char :=
  let p1 := protectAll matchStringLit text []
  let p2 := protectAll matchRegexLit p1.1 p1.2
  let t3 := stripAll matchLineComment p2.1
  let t4 := stripAll matchBlockComment t3
  restoreAll p2.2 t4

def removeComments (text : String) : String := ⟨removeCommentsCore text.data⟩

/-! Skip lemmas: positions where a matcher fails are copied verbatim. -/

theorem protectAll_skip (f : List Char → Option (List Char × List Char))
    (hf : ∀ l m r, f l = some (m, r) → r.length < l.length) :
    ∀ (pre l : List Char) (items : List (List Char)),
      (∀ c pre2, c :: pre2 <:+ pre → f (c :: (pre2 ++ l)) = none) →
      protectAll f (pre ++ l) items =
        ((pre ++ (protectAll f l items).1), (protectAll f l items).2) := by
  intro pre
  induction pre with
  | nil => intro l items _; simp
  | cons c pre2 ih =>
    intro l items hpre
    rw [List.cons_append, protectAll_cons f hf, hpre c pre2 (List.suffix_refl _)]
    rw [ih l items (fun d pre3 hs => hpre d pre3 (hs.trans (List.suffix_cons c pre2)))]
    rfl

theorem protectAll_id (f : List Char → Option (List Char × List Char))
    (hf : ∀ l m r, f l = some (m, r) → r.length < l.length)
    (l : List Char) (items : List (List Char))
    (hl : ∀ c l2, c :: l2 <:+ l → f (c :: l2) = none) :
    protectAll f l items = (l, items) := by
  have h := protectAll_skip f hf l [] items
    (fun c pre2 hs => by rw [List.append_nil]; exact hl c pre2 hs)
  rw [List.append_nil] at h
  rw [h, protectAll_nil, List.append_nil]

theorem stripAll_skip (f : List Char → Option (List Char × List Char))
    (hf : ∀ l m r, f l = some (m, r) → r.length < l.length) :
    ∀ (pre l : List Char),
      (∀ c pre2, c :: pre2 <:+ pre → f (c :: (pre2 ++ l)) = none) →
      stripAll f (pre ++ l) = pre ++ stripAll f l := by
  intro pre
  induction pre with
  | nil => intro l _; simp
  | cons c pre2 ih =>
    intro l hpre
    rw [List.cons_append, stripAll_cons f hf, hpre c pre2 (List.suffix_refl _)]
    rw [ih l (fun d pre3 hs => hpre d pre3 (hs.trans (List.suffix_cons c pre2)))]
    rfl

theorem stripAll_id (f : List Char → Option (List Char × List Char))
    (hf : ∀ l m r, f l = some (m, r) → r.length < l.length)
    (l : List Char)
    (hl : ∀ c l2, c :: l2 <:+ l → f (c :: l2) = none) :
    stripAll f l = l := by
  have h := stripAll_skip f hf l []
    (fun c pre2 hs => by rw [List.append_nil]; exact hl c pre2 hs)
  rw [List.append_nil] at h
  rw [h, stripAll_nil, List.append_nil]

theorem restoreAll_skip (items : List (List Char)) :
    ∀ (pre l : List Char),
      (∀ c pre2, c :: pre2 <:+ pre → matchPlaceholderTok (c :: (pre2 ++ l)) = none) →
      restoreAll items (pre ++ l) = pre ++ restoreAll items l := by
  intro pre
  induction pre with
  | nil => intro l _; simp
  | cons c pre2 ih =>
    intro l hpre
    rw [List.cons_append, restoreAll_cons items, hpre c pre2 (List.suffix_refl _)]
    rw [ih l (fun d pre3 hs => hpre d pre3 (hs.trans (List.suffix_cons c pre2)))]
    rfl

theorem restoreAll_id (items : List (List Char)) (l : List Char)
    (hl : ∀ c l2, c :: l2 <:+ l → matchPlaceholderTok (c :: l2) = none) :
    restoreAll items l = l := by
  have h := restoreAll_skip items l []
    (fun c pre2 hs => by rw [List.append_nil]; exact hl c pre2 hs)
  rw [List.append_nil] at h
  rw [h, restoreAll_nil, List.append_nil]

/-! Head-failure lemmas: these matchers can only succeed at specific
leading characters. -/

theorem matchStringLit_none (c : Char) (rest : List Char) (h : isQuote c = false) :
    matchStringLit (c :: rest) = none := by
  rw [matchStringLit, h]
  simp

theorem matchRegexLit_none (c : Char) (rest : List Char) (h : c ≠ '/') :
    matchRegexLit (c :: rest) = none := by
  cases rest with
  | nil => rfl
  | cons d rest1 =>
    rw [matchRegexLit, if_neg h]

theorem matchLineComment_none (c : Char) (rest : List Char) (h : c ≠ '/') :
    matchLineComment (c :: rest) = none := by
  cases rest with
  | nil => rfl
  | cons d rest1 =>
    rw [matchLineComment, if_neg (fun hc => h hc.1)]

theorem matchBlockComment_none (c : Char) (rest : List Char) (h : c ≠ '/') :
    matchBlockComment (c :: rest) = none := by
  cases rest with
  | nil => rfl
  | cons d rest1 =>
    rw [matchBlockComment, if_neg (fun hc => h hc.1)]

theorem matchPlaceholderTok_none (c : Char) (rest : List Char) (h : c ≠ '_') :
    matchPlaceholderTok (c :: rest) = none := by
  rw [matchPlaceholderTok, preservedMark, stripLit, if_neg h]

/-! Hit lemmas. -/

theorem strScan_through (q : Char) :
    ∀ (content suf : List Char),
      (∀ c ∈ content, c ≠ q ∧ c ≠ '\\' ∧ notLineTerm c = true) →
      strScan q (content ++ q :: suf) = some (content ++ [q], suf)
  | [], suf, _ => by
    cases suf with
    | nil => rw [List.nil_append, strScan, if_pos rfl]
    | cons d rest =>
      rw [List.nil_append, strScan, if_pos rfl]
      simp
  | c :: cs, suf, h => by
    obtain ⟨hq, hb, hn⟩ := h c (List.mem_cons_self _ _)
    have hrest : ∀ x ∈ cs, x ≠ q ∧ x ≠ '\\' ∧ notLineTerm x = true :=
      fun x hx => h x (List.mem_cons_of_mem _ hx)
    have hcons : cs ++ q :: suf = (cs ++ q :: suf) := rfl
    cases hsh : cs ++ q :: suf with
    | nil => exact absurd hsh (by simp)
    | cons d rest2 =>
      have : strScan q (c :: d :: rest2) =
          (strScan q (d :: rest2)).map (fun p => (c :: p.1, p.2)) := by
        rw [strScan, if_neg hq, if_neg hb, if_pos hn]
      rw [List.cons_append, hsh, this, ← hsh, strScan_through q cs suf hrest]
      simp

/-- The single-quote character, written via its code point so that source
literals in this file stay simple. -/
def sqc : Char := Char.ofNat 39

theorem matchStringLit_hit (content suf : List Char)
    (h : ∀ c ∈ content, c ≠ sqc ∧ c ≠ '\\' ∧ notLineTerm c = true) :
    matchStringLit ((sqc :: content ++ [sqc]) ++ suf)
      = some (sqc :: content ++ [sqc], suf) := by
  have hshape : (sqc :: content ++ [sqc]) ++ suf = sqc :: (content ++ sqc :: suf) := by
    simp
  rw [hshape, matchStringLit, if_pos (by decide), strScan_through sqc content suf h]
  simp

theorem stripLit_self : ∀ (pat rest : List Char), stripLit pat (pat ++ rest) = some rest
  | [], rest => by rw [List.nil_append, stripLit]
  | p :: ps, rest => by
    rw [List.cons_append, stripLit, if_pos rfl, stripLit_self ps rest]

theorem matchPlaceholderTok_hit (suf : List Char) :
    matchPlaceholderTok (mkPlaceholder 0 ++ suf) = some (0, suf) := by
  have h0 : (toString (0 : Nat)).data = ['0'] := by decide
  rw [matchPlaceholderTok, mkPlaceholder, h0]
  rw [show (preservedMark ++ ['0'] ++ ['_', '_']) ++ suf
      = preservedMark ++ ('0' :: '_' :: '_' :: suf) by simp]
  rw [stripLit_self]
  have d0 : Char.isDigit '0' = true := by decide
  have du : Char.isDigit '_' = false := by decide
  simp only [List.takeWhile_cons, List.dropWhile_cons, d0, du, if_true, if_false,
    Bool.false_eq_true, afterDigits]
  simp [digitsToNat]

theorem head_mem_of_suffix {c : Char} {l2 L : List Char} (h : c :: l2 <:+ L) : c ∈ L :=
  h.sublist.subset (List.mem_cons_self c l2)

theorem list_getD_zero (x : List Char) (xs : List (List Char)) (d : List Char) :
    (x :: xs).getD 0 d = x := rfl

theorem restoreAll_hit (items : List (List Char)) (suf : List Char) :
    restoreAll items (mkPlaceholder 0 ++ suf)
      = items.getD 0 undefinedText ++ restoreAll items suf := by
  have hshape : mkPlaceholder 0
      = '_' :: ['_', 'P', 'R', 'E', 'S', 'E', 'R', 'V', 'E', 'D', '_', '_', '0', '_', '_'] := by
    decide
  rw [hshape, List.cons_append, restoreAll_cons, ← List.cons_append, ← hshape,
    matchPlaceholderTok_hit]

/-- Inert characters for the fixpoint family: cannot start a string, regex,
comment, or placeholder match. -/
def InertC (c : Char) : Prop := isQuote c = false ∧ c ≠ '/' ∧ c ≠ '_'

theorem removeCommentsCore_fix (pre suf content : List Char)
    (hpre : ∀ c ∈ pre, InertC c) (hsuf : ∀ c ∈ suf, InertC c)
    (hcontent : ∀ c ∈ content, c ≠ sqc ∧ c ≠ '\\' ∧ notLineTerm c = true) :
    removeCommentsCore (pre ++ (sqc :: content ++ [sqc]) ++ suf)
      = pre ++ (sqc :: content ++ [sqc]) ++ suf := by
  have hq : isQuote sqc = true := by decide
  have hlit : (sqc :: content ++ [sqc]) ++ suf = sqc :: (content ++ [sqc] ++ suf) := by simp
  -- string-protection pass
  have hp1 : protectAll matchStringLit (pre ++ ((sqc :: content ++ [sqc]) ++ suf)) []
      = (pre ++ (mkPlaceholder 0 ++ suf), [sqc :: content ++ [sqc]]) := by
    rw [protectAll_skip matchStringLit matchStringLit_length pre _ []
      (fun c pre2 hs => matchStringLit_none c _ ((hpre c (head_mem_of_suffix hs)).1))]
    rw [hlit, protectAll_cons matchStringLit matchStringLit_length]
    rw [show sqc :: (content ++ [sqc] ++ suf) = (sqc :: content ++ [sqc]) ++ suf by simp]
    rw [matchStringLit_hit content suf hcontent]
    simp only [List.nil_append, List.length_nil]
    rw [protectAll_id matchStringLit matchStringLit_length suf _
      (fun c l2 hs => matchStringLit_none c _ ((hsuf c (head_mem_of_suffix hs)).1))]
  -- no `/` anywhere in the placeheld text
  have hph : ∀ c ∈ mkPlaceholder 0, c ≠ '/' := by decide
  have hnoslash : ∀ c ∈ pre ++ (mkPlaceholder 0 ++ suf), c ≠ '/' := by
    intro c hc
    rcases List.mem_append.mp hc with h1 | h2
    · exact (hpre c h1).2.1
    · rcases List.mem_append.mp h2 with h3 | h4
      · exact hph c h3
      · exact (hsuf c h4).2.1
  have hp2 : protectAll matchRegexLit (pre ++ (mkPlaceholder 0 ++ suf))
      [sqc :: content ++ [sqc]]
      = (pre ++ (mkPlaceholder 0 ++ suf), [sqc :: content ++ [sqc]]) :=
    protectAll_id matchRegexLit matchRegexLit_length _ _
      (fun c l2 hs => matchRegexLit_none c _ (hnoslash c (head_mem_of_suffix hs)))
  have ht3 : stripAll matchLineComment (pre ++ (mkPlaceholder 0 ++ suf))
      = pre ++ (mkPlaceholder 0 ++ suf) :=
    stripAll_id matchLineComment matchLineComment_length _
      (fun c l2 hs => matchLineComment_none c _ (hnoslash c (head_mem_of_suffix hs)))
  have ht4 : stripAll matchBlockComment (pre ++ (mkPlaceholder 0 ++ suf))
      = pre ++ (mkPlaceholder 0 ++ suf) :=
    stripAll_id matchBlockComment matchBlockComment_length _
      (fun c l2 hs => matchBlockComment_none c _ (hnoslash c (head_mem_of_suffix hs)))
  have hr5 : restoreAll [sqc :: content ++ [sqc]] (pre ++ (mkPlaceholder 0 ++ suf))
      = pre ++ (sqc :: content ++ [sqc]) ++ suf := by
    rw [restoreAll_skip _ pre _
      (fun c pre2 hs => matchPlaceholderTok_none c _ ((hpre c (head_mem_of_suffix hs)).2.2))]
    rw [restoreAll_hit, list_getD_zero]
    rw [restoreAll_id _ suf
      (fun c l2 hs => matchPlaceholderTok_none c _ ((hsuf c (head_mem_of_suffix hs)).2.2))]
    simp
  simp only [removeCommentsCore]
  rw [List.append_assoc, hp1]
  simp only
  rw [hp2]
  simp only
  rw [ht3, ht4, hr5, List.append_assoc]

/-! Lemmas for the line-comment interaction (claim C10). -/

theorem matchRegexLit_dslash (t : List Char) : matchRegexLit ('/' :: '/' :: t) = none := by
  rw [matchRegexLit]
  dsimp only
  have h2 : List.takeWhile (fun x => !endsRegexBody x) ('/' :: t) = [] := by
    rw [List.takeWhile_cons]
    norm_num [endsRegexBody]
  rw [if_pos rfl, if_neg (by decide : ¬('/' : Char) = '*'), h2]
  simp

theorem matchRegexLit_slash_none (t : List Char) (h : '/' ∉ t) :
    matchRegexLit ('/' :: t) = none := by
  cases t with
  | nil => rfl
  | cons d t1 =>
    rw [matchRegexLit]
    dsimp only
    rw [if_pos rfl]
    by_cases hd : d = '*'
    · rw [if_pos hd]
    · rw [if_neg hd]
      have hhd : ¬((d :: t1).dropWhile (fun x => !endsRegexBody x)).head? = some '/' := by
        intro hh
        cases hdw : (d :: t1).dropWhile (fun x => !endsRegexBody x) with
        | nil => rw [hdw] at hh; cases hh
        | cons e es =>
          rw [hdw] at hh
          simp only [List.head?] at hh
          cases hh
          exact h ((List.dropWhile_suffix _).sublist.subset
            (hdw ▸ List.mem_cons_self _ _))
      split
      · rfl
      · simp [hhd]

theorem matchLineComment_hit (t : List Char) (ht : ∀ c ∈ t, notLineTerm c = true) :
    matchLineComment ('/' :: '/' :: t) = some ('/' :: '/' :: t, []) := by
  rw [matchLineComment, if_pos ⟨rfl, rfl⟩]
  rw [List.takeWhile_eq_self_iff.mpr ht, List.dropWhile_eq_nil_iff.mpr ht]
  rfl

/-- Sanity check for the lookahead semantics: when the greedy `.*` run of
a `//` comment stops at U+2028 the lookahead `(?=[\n\r]|$)` fails, no pass
matches anything, and `removeComments` leaves `a //x⟨U+2028⟩y`
unchanged. -/
theorem removeComments_lineSep_noRemoval :
    removeComments ⟨"a //x".data ++ lineSepChar :: ['y']⟩
      = ⟨"a //x".data ++ lineSepChar :: ['y']⟩ := by decide

/-- Sanity check: when the run stops at `\n` the lookahead holds and the
comment (but not the terminator) is removed. -/
theorem removeComments_newline_removal :
    removeComments "a //x\ny" = "a \ny" := by decide

/-- Sanity check for the string pattern: `.` matches no line terminator,
so a quote-delimited span containing U+2028 is not protected as a string
literal. -/
theorem matchStringLit_lineSep_fails :
    matchStringLit (sqc :: 'a' :: lineSepChar :: 'b' :: [sqc]) = none := by decide

/-- Inert characters for the C10 family: cannot start or continue any
match, and are not line terminators. -/
def C10Inert (c : Char) : Prop :=
  isQuote c = false ∧ c ≠ '/' ∧ c ≠ '_' ∧ notLineTerm c = true

theorem removeCommentsCore_lineComment (p t : List Char)
    (hp : ∀ c ∈ p, C10Inert c) (ht : ∀ c ∈ t, C10Inert c) :
    removeCommentsCore (p ++ '/' :: '/' :: t) = p := by
  have hnq : ∀ c ∈ p ++ '/' :: '/' :: t, isQuote c = false := by
    intro c hc
    rcases List.mem_append.mp hc with h1 | h2
    · exact (hp c h1).1
    · rcases List.mem_cons.mp h2 with rfl | h3
      · decide
      · rcases List.mem_cons.mp h3 with rfl | h4
        · decide
        · exact (ht c h4).1
  have hp1 : protectAll matchStringLit (p ++ '/' :: '/' :: t) []
      = (p ++ '/' :: '/' :: t, []) :=
    protectAll_id matchStringLit matchStringLit_length _ _
      (fun c l2 hs => matchStringLit_none c _ (hnq c (head_mem_of_suffix hs)))
  have hslash : '/' ∉ t := fun hmem => (ht '/' hmem).2.1 rfl
  have hp2 : protectAll matchRegexLit (p ++ '/' :: '/' :: t) []
      = (p ++ '/' :: '/' :: t, []) := by
    rw [protectAll_skip matchRegexLit matchRegexLit_length p _ []
      (fun c pre2 hs => matchRegexLit_none c _ ((hp c (head_mem_of_suffix hs)).2.1))]
    rw [protectAll_cons matchRegexLit matchRegexLit_length, matchRegexLit_dslash]
    simp only
    rw [protectAll_cons matchRegexLit matchRegexLit_length, matchRegexLit_slash_none t hslash]
    simp only
    rw [protectAll_id matchRegexLit matchRegexLit_length t []
      (fun c l2 hs => matchRegexLit_none c _ ((ht c (head_mem_of_suffix hs)).2.1))]
  have ht3 : stripAll matchLineComment (p ++ '/' :: '/' :: t) = p := by
    rw [stripAll_skip matchLineComment matchLineComment_length p _
      (fun c pre2 hs => matchLineComment_none c _ ((hp c (head_mem_of_suffix hs)).2.1))]
    rw [stripAll_cons matchLineComment matchLineComment_length,
      matchLineComment_hit t (fun c hc => (ht c hc).2.2.2)]
    simp only
    rw [stripAll_nil, List.append_nil]
  have ht4 : stripAll matchBlockComment p = p :=
    stripAll_id matchBlockComment matchBlockComment_length _
      (fun c l2 hs => matchBlockComment_none c _ ((hp c (head_mem_of_suffix hs)).2.1))
  have hr5 : restoreAll [] p = p :=
    restoreAll_id _ _
      (fun c l2 hs => matchPlaceholderTok_none c _ ((hp c (head_mem_of_suffix hs)).2.2.1))
  simp only [removeCommentsCore]
  rw [hp1]
  simp only
  rw [hp2]
  simp only
  rw [ht3, ht4, hr5]


/-! ## Claims C6, C7, C10 -/

/-- The C6 counterexample input `__PRESERVED__1__ 'b' /p'q/`: an
identifier-like token, a string literal, and a regex literal — no
comments (neither `//` nor `/*` occurs in it, as the first conjunct
verifies against the comment matchers themselves). -/
def c6input : List Char :=
  "__PRESERVED__1__ ".data ++ [sqc, 'b', sqc, ' ', '/', 'p', sqc, 'q', '/']

/-- **C6 counterexample**: `removeComments` is not idempotent on the
comment-free input `__PRESERVED__1__ 'b' /p'q/`.  One application yields
`/p'q/ 'b' /p'q/` (the placeholder text in the input is rewritten to the
later-preserved regex literal), and a second application yields
`/p__PRESERVED__0__b__PRESERVED__1__q/`. -/
theorem claim6_counterexample :
    (stripAll matchLineComment c6input = c6input
        ∧ stripAll matchBlockComment c6input = c6input)
      ∧ removeComments (removeComments ⟨c6input⟩) ≠ removeComments ⟨c6input⟩ := by
  refine ⟨⟨by decide, by decide⟩, by decide⟩

/-- **C6 (amended)**: `removeComments` is idempotent on comment-free
inputs that contain no `__PRESERVED__` placeholder text and whose string
and regex literals are re-protected identically on a second pass; proved
for every input consisting of one single-quoted string literal whose
content is free of the quote, backslashes, and the four ECMAScript line
terminators (`\n`, `\r`, U+2028, U+2029), surrounded by text free of
quotes, backticks, slashes, and underscores (on such input
`removeComments` is the identity, so applying it twice equals applying
it once). -/
theorem claim6_idempotent_amended (pre suf content : List Char)
    (hpre : ∀ c ∈ pre, InertC c) (hsuf : ∀ c ∈ suf, InertC c)
    (hcontent : ∀ c ∈ content, c ≠ sqc ∧ c ≠ '\\' ∧ notLineTerm c = true) :
    removeComments (removeComments ⟨pre ++ (sqc :: content ++ [sqc]) ++ suf⟩)
      = removeComments ⟨pre ++ (sqc :: content ++ [sqc]) ++ suf⟩ := by
  have h1 : removeComments ⟨pre ++ (sqc :: content ++ [sqc]) ++ suf⟩
      = ⟨pre ++ (sqc :: content ++ [sqc]) ++ suf⟩ := by
    show (⟨removeCommentsCore (pre ++ (sqc :: content ++ [sqc]) ++ suf)⟩ : String) = _
    rw [removeCommentsCore_fix pre suf content hpre hsuf hcontent]
  rw [h1, h1]

/-- Witness for the amended C6 at the concrete comment-free input
`x = 'a//b'; y`. -/
theorem claim6_idempotent_amended_witness :
    removeComments (removeComments ⟨"x = ".data ++ (sqc :: "a//b".data ++ [sqc]) ++ "; y".data⟩)
      = removeComments ⟨"x = ".data ++ (sqc :: "a//b".data ++ [sqc]) ++ "; y".data⟩ :=
  claim6_idempotent_amended "x = ".data "; y".data "a//b".data
    (by intro c hc; fin_cases hc <;> exact ⟨by decide, by decide, by decide⟩)
    (by intro c hc; fin_cases hc <;> exact ⟨by decide, by decide, by decide⟩)
    (by intro c hc; fin_cases hc <;> exact ⟨by decide, by decide, by decide⟩)

/-- The string literal `'x //not-a-comment y'`. -/
def c7lit : List Char := sqc :: "x //not-a-comment y".data ++ [sqc]

/-- The C7 counterexample input `1 /'x //not-a-comment y'/ 2` (a division
chain whose middle operand is a string literal). -/
def c7input : List Char := "1 /".data ++ c7lit ++ "/ 2".data

/-- **C7 counterexample**: on the input `1 /'x //not-a-comment y'/ 2` the
string literal containing `//not-a-comment` is NOT preserved: the
protected literal's placeholder is swallowed by the regex-literal
protection pass, and the single-scan restore step never reaches it, so
the output is `1 /__PRESERVED__0__/ 2` and the literal is gone. -/
theorem claim7_counterexample :
    removeComments ⟨c7input⟩ = ⟨"1 /__PRESERVED__0__/ 2".data⟩
      ∧ ¬ (c7lit <:+: (removeComments ⟨c7input⟩).data) := by
  refine ⟨by decide, by decide⟩

/-- **C7 (amended)**: a string literal whose content contains
`//not-a-comment` and is free of the quote, backslashes, and the four
ECMAScript line terminators (`\n`, `\r`, U+2028, U+2029) is preserved
verbatim by `removeComments` provided the surrounding text contains no
quote, backtick, slash, or underscore characters (so that no other
string/regex protection overlaps the literal); indeed on such input
`removeComments` is the identity. -/
theorem claim7_literal_preserved_amended (pre suf content : List Char)
    (hpre : ∀ c ∈ pre, InertC c) (hsuf : ∀ c ∈ suf, InertC c)
    (hcontent : ∀ c ∈ content, c ≠ sqc ∧ c ≠ '\\' ∧ notLineTerm c = true)
    (hnac : "//not-a-comment".data <:+: content) :
    removeComments ⟨pre ++ (sqc :: content ++ [sqc]) ++ suf⟩
        = ⟨pre ++ (sqc :: content ++ [sqc]) ++ suf⟩
      ∧ (sqc :: content ++ [sqc])
          <:+: (removeComments ⟨pre ++ (sqc :: content ++ [sqc]) ++ suf⟩).data := by
  have h1 : removeComments ⟨pre ++ (sqc :: content ++ [sqc]) ++ suf⟩
      = ⟨pre ++ (sqc :: content ++ [sqc]) ++ suf⟩ := by
    show (⟨removeCommentsCore (pre ++ (sqc :: content ++ [sqc]) ++ suf)⟩ : String) = _
    rw [removeCommentsCore_fix pre suf content hpre hsuf hcontent]
  refine ⟨h1, ?_⟩
  rw [h1]
  exact ⟨pre, suf, by simp⟩

/-- Witness for the amended C7 at the concrete input
`x = 'x //not-a-comment y'; y`. -/
theorem claim7_literal_preserved_amended_witness :
    removeComments ⟨"x = ".data ++ (sqc :: "x //not-a-comment y".data ++ [sqc]) ++ "; y".data⟩
        = ⟨"x = ".data ++ (sqc :: "x //not-a-comment y".data ++ [sqc]) ++ "; y".data⟩
      ∧ (sqc :: "x //not-a-comment y".data ++ [sqc]) <:+:
          (removeComments ⟨"x = ".data
            ++ (sqc :: "x //not-a-comment y".data ++ [sqc]) ++ "; y".data⟩).data :=
  claim7_literal_preserved_amended "x = ".data "; y".data "x //not-a-comment y".data
    (by intro c hc; fin_cases hc <;> exact ⟨by decide, by decide, by decide⟩)
    (by intro c hc; fin_cases hc <;> exact ⟨by decide, by decide, by decide⟩)
    (by intro c hc; fin_cases hc <;> exact ⟨by decide, by decide, by decide⟩)
    (by decide)

/-! ### Per-file content processing (`readAllFiles` lines 221-229) -/

/-- `String.prototype.toLowerCase` (ASCII is all that matters here). -/
def jsToLowerCase (s : String) : String := ⟨s.data.map Char.toLower⟩

/-- `path.extname`: the extension of the basename, from the last `.` to
the end; empty when there is no dot or the dot is the leading character
of the basename (as for `.env`), and empty for the basename `..`. -/
def extname (s : String) : String :=
  let base := (s.data.reverse.takeWhile (fun c => c ≠ '/')).reverse
  let revBase := base.reverse
  let extRev := revBase.takeWhile (fun c => c ≠ '.')
  if extRev.length = revBase.length then ""
  else if extRev.length + 1 = base.length then ""
  else if base = ['.', '.'] then ""
  else ⟨'.' :: extRev.reverse⟩

/-- Lines 221-229 of `readAllFiles`: whitespace removal is applied first
(when enabled), then comment removal (when enabled and the item's
lower-cased extension is `.js`). -/
def processFileContent (removeWhitespaceSetting removeCommentsSetting : Bool)
    (item content : String) : String :=
  let fileContent := if removeWhitespaceSetting then removeWhitespace content else content
  if removeCommentsSetting && (jsToLowerCase (extname item) == ".js") then
    removeComments fileContent
  else fileContent

/-- **C10 counterexample**: with both settings enabled on a `.js` file,
the collapsed content of `"a = b / c\n// tail"` is
`"a = b / c // tail"`, and the `//` comment is NOT removed at all (the
regex-literal protection pass consumes `/ c /`, splitting the `//`), so
the processed output is the collapsed content unchanged — not everything
up to the comment as the claim predicts. -/
theorem claim10_counterexample :
    processFileContent true true "x.js" "a = b / c\n// tail" = "a = b / c // tail"
      ∧ ("a = b / c // tail" : String) ≠ "a = b / c " := by
  refine ⟨by decide, by decide⟩

/-- **C10 (amended)**: when both settings are enabled for a `.js` file,
whitespace collapsing is applied first and `removeComments` operates on
the collapsed single-line content (first conjunct, the order claim,
confirmed); a `//` comment removes everything from its position to the
end of the collapsed content provided the text around it contains no
quote, backtick, slash, backslash, or underscore characters and none of
the four ECMAScript line terminators (`\n`, `\r`, U+2028, U+2029 — after
one of the latter two the lookahead `(?=[\n\r]|$)` would fail and no
comment would be removed), so that no string/regex protection interferes
(second conjunct). -/
theorem claim10_order_and_line_comment (item content : String)
    (hjs : jsToLowerCase (extname item) = ".js")
    (p t : List Char) (hp : ∀ c ∈ p, C10Inert c) (ht : ∀ c ∈ t, C10Inert c) :
    processFileContent true true item content = removeComments (removeWhitespace content)
      ∧ removeComments ⟨p ++ '/' :: '/' :: t⟩ = ⟨p⟩ := by
  constructor
  · rw [processFileContent, hjs]
    simp
  · show (⟨removeCommentsCore (p ++ '/' :: '/' :: t)⟩ : String) = ⟨p⟩
    rw [removeCommentsCore_lineComment p t hp ht]

/-- Witness for the amended C10 at the file name `x.js`, content `ab`,
and collapsed text `q = r // tail`. -/
theorem claim10_order_and_line_comment_witness :
    processFileContent true true "x.js" "ab" = removeComments (removeWhitespace "ab")
      ∧ removeComments ⟨"q = r ".data ++ '/' :: '/' :: " tail".data⟩ = ⟨"q = r ".data⟩ :=
  claim10_order_and_line_comment "x.js" "ab" (by decide) "q = r ".data " tail".data
    (by intro c hc; fin_cases hc <;> exact ⟨by decide, by decide, by decide, by decide⟩)
    (by intro c hc; fin_cases hc <;> exact ⟨by decide, by decide, by decide, by decide⟩)

/-! ## Tree walker, formatter, and main execution

`getDirectoryStructure` (source lines 110-143), `readAllFiles` (lines
198-238), `formatStructure` (lines 246-263), and the top-level try/catch
block (lines 269-301).

The filesystem is modelled as a tree of `FSNode`s; each `Option` field
models an `fs.*Sync` call that may throw (`none` = the call throws), and
a thrown exception propagates as `Except.error`.  A file node carries
both its raw bytes (read by `isBinaryFile`) and its text (the `utf8`
read) as two views of the same on-disk content.  As in `main`, where
`targetDir = process.cwd()`, the ignore-matching path
`path.relative(process.cwd(), fullPath)` coincides with
`path.join(parentPath, item)`, so a single relative path is threaded for
both uses; `dirPath` threads `fullPath` for the `path` field of entries.
The ignore rule set (the external `ignore` package plus `.gitignore`
content, an out-of-scope collaborator) is an abstract predicate
`ig : String → Bool` on relative paths.

`formatStructure` iterates `for (const key in fileStructure)`, which
enumerates integer-like own keys in ascending numeric order first and
the remaining keys in insertion order (`jsEnumOrder`); its duck-typing
test `typeof v === 'object' && 'relativePath' in v` treats a directory
that contains a child named `relativePath` as a file entry, rendering
the JS template-string coercions `[object Object]`/`undefined`
(`jsShowOpt`).  It is written with a step budget (`fuel`) bounding the
recursion depth so that it stays executable by the kernel;
`formatStructureFuel_congr` shows the budget is irrelevant once it is at
least the tree depth. -/

/-- The `fs.Stats` fields the program uses (`size`, `mtime`; the `mtime`
`Date` is modelled by its rendered string). -/
structure Stats where
  size : Nat
  mtime : String

/- The filesystem: a file carries stats, raw bytes (the `readFileSync`
with `encoding: null` used by `isBinaryFile`) and text (the `utf8` read)
as two views of the same content; a directory carries stats and its
listing.  `none` models an `fs.*Sync` call that throws. -/
mutual
inductive FSNode where
  | file (stats : Option Stats) (bytes : Option (List Nat)) (text : String)
  | dir (stats : Option Stats) (entries : Option FSEntries)
inductive FSEntries where
  | nil
  | cons (name : String) (node : FSNode) (rest : FSEntries)
end

/-- Configuration constant from line 10 of the source. -/
def processAllFiles : Bool := true

/-- Configuration constant from line 13 of the source. -/
def TARGET_EXTENSIONS : List String := [".html", ".js"]

/-- `shouldProcessFile` (lines 67-73). -/
def shouldProcessFile (file : String) : Bool :=
  if processAllFiles then true
  else TARGET_EXTENSIONS.contains (jsToLowerCase (extname file))

/-- The object attached for a kept file (lines 133-138). -/
structure FileEntry where
  path : String
  relativePath : String
  size : Nat
  lastModified : String

/- The nested mapping built by `getDirectoryStructure`: child name to
either a `FileEntry` or a nested directory object, in insertion order. -/
mutual
inductive DirNode where
  | file (e : FileEntry)
  | dir (children : DirEntries)
inductive DirEntries where
  | nil
  | cons (name : String) (node : DirNode) (rest : DirEntries)
end

/-- `path.join(parent, item)` for the paths this program builds. -/
def joinPath (parent item : String) : String :=
  if parent = "" then item else parent ++ "/" ++ item

/-- `getDirectoryStructure` (lines 110-143): per directory entry, skip
if ignored; recurse into directories (attaching the subtree even when
empty); for files, after a successful `stat`, keep a `FileEntry` unless
the extension filter excludes it or `isBinaryFile` flags it.  Any failed
filesystem call aborts with `.error` (the thrown exception). -/
def getDirectoryStructure (ig : String → Bool) (dirPath parentPath : String) :
    FSEntries → Except String DirEntries
  | .nil => .ok .nil
  | .cons item node rest => do
    let fullPath := joinPath dirPath item
    let relativePath := joinPath parentPath item
    if ig relativePath then
      getDirectoryStructure ig dirPath parentPath rest
    else
      match node with
      | .dir stats entries =>
        match stats with
        | none => .error "stat"
        | some _ =>
          match entries with
          | none => .error "readdir"
          | some sub => do
            let subTree ← getDirectoryStructure ig fullPath relativePath sub
            let restTree ← getDirectoryStructure ig dirPath parentPath rest
            .ok (.cons item (.dir subTree) restTree)
      | .file stats bytes _ =>
        match stats with
        | none => .error "stat"
        | some st =>
          if shouldProcessFile item then
            match bytes with
            | none => .error "read"
            | some bs =>
              if isBinaryFile bs then
                getDirectoryStructure ig dirPath parentPath rest
              else do
                let restTree ← getDirectoryStructure ig dirPath parentPath rest
                .ok (.cons item
                  (.file ⟨fullPath, relativePath, st.size, st.mtime⟩) restTree)
          else
            getDirectoryStructure ig dirPath parentPath rest

/-- `readAllFiles` (lines 198-238): the same filtering, accumulating
per kept file the block
`File: <name>\nPath: <rel>\n\n<processed content>\n\n`. -/
def readAllFiles (ig : String → Bool) (parentPath : String)
    (removeWhitespaceSetting removeCommentsSetting : Bool) :
    FSEntries → Except String String
  | .nil => .ok ""
  | .cons item node rest => do
    let relativePath := joinPath parentPath item
    if ig relativePath then
      readAllFiles ig parentPath removeWhitespaceSetting removeCommentsSetting rest
    else
      match node with
      | .dir stats entries =>
        match stats with
        | none => .error "stat"
        | some _ =>
          match entries with
          | none => .error "readdir"
          | some sub => do
            let subText ← readAllFiles ig relativePath
              removeWhitespaceSetting removeCommentsSetting sub
            let restText ← readAllFiles ig parentPath
              removeWhitespaceSetting removeCommentsSetting rest
            .ok (subText ++ restText)
      | .file stats bytes text =>
        match stats with
        | none => .error "stat"
        | some _ =>
          if shouldProcessFile item then
            match bytes with
            | none => .error "read"
            | some bs =>
              if isBinaryFile bs then
                readAllFiles ig parentPath removeWhitespaceSetting removeCommentsSetting rest
              else do
                let fileContent := processFileContent
                  removeWhitespaceSetting removeCommentsSetting item text
                let restText ← readAllFiles ig parentPath
                  removeWhitespaceSetting removeCommentsSetting rest
                .ok ("File: " ++ item ++ "\n" ++ "Path: " ++ relativePath ++ "\n\n"
                  ++ fileContent ++ "\n\n" ++ restText)
          else
            readAllFiles ig parentPath removeWhitespaceSetting removeCommentsSetting rest

/-- Spec-side record for C1's refinement: one kept (non-ignored,
processed, non-binary) file with the data both passes derive from it. -/
structure KeptFile where
  name : String
  rel : String
  path : String
  size : Nat
  mtime : String
  text : String

/-- Spec-side (from the spec's words, for the C1 refinement): the list of
kept files in traversal order, applying the identical
ignore/extension/binary filtering that both traversals must share.  On
error nodes it keeps nothing; C1 is stated under the hypothesis that both
passes succeeded, which rules such nodes out of the kept set. -/
def specKept (ig : String → Bool) (dirPath parentPath : String) : FSEntries → List KeptFile
  | .nil => []
  | .cons item node rest =>
    let fullPath := joinPath dirPath item
    let rel := joinPath parentPath item
    if ig rel then specKept ig dirPath parentPath rest
    else
      match node with
      | .dir _ entries =>
        (match entries with
          | some sub => specKept ig fullPath rel sub
          | none => []) ++ specKept ig dirPath parentPath rest
      | .file stats bytes text =>
        match stats, bytes with
        | some st, some bs =>
          if shouldProcessFile item && !isBinaryFile bs then
            ⟨item, rel, fullPath, st.size, st.mtime, text⟩ :: specKept ig dirPath parentPath rest
          else specKept ig dirPath parentPath rest
        | _, _ => specKept ig dirPath parentPath rest


theorem getDirectoryStructure_nil (ig : String → Bool) (dirPath parentPath : String) :
    getDirectoryStructure ig dirPath parentPath .nil = .ok .nil := rfl

theorem getDirectoryStructure_cons (ig : String → Bool) (dirPath parentPath item : String)
    (node : FSNode) (rest : FSEntries) :
    getDirectoryStructure ig dirPath parentPath (.cons item node rest) =
      (if ig (joinPath parentPath item) then
        getDirectoryStructure ig dirPath parentPath rest
      else
        match node with
        | .dir stats entries =>
          match stats with
          | none => .error "stat"
          | some _ =>
            match entries with
            | none => .error "readdir"
            | some sub => do
              let subTree ← getDirectoryStructure ig (joinPath dirPath item)
                (joinPath parentPath item) sub
              let restTree ← getDirectoryStructure ig dirPath parentPath rest
              .ok (.cons item (.dir subTree) restTree)
        | .file stats bytes _ =>
          match stats with
          | none => .error "stat"
          | some st =>
            if shouldProcessFile item then
              match bytes with
              | none => .error "read"
              | some bs =>
                if isBinaryFile bs then
                  getDirectoryStructure ig dirPath parentPath rest
                else do
                  let restTree ← getDirectoryStructure ig dirPath parentPath rest
                  .ok (.cons item
                    (.file ⟨joinPath dirPath item, joinPath parentPath item,
                      st.size, st.mtime⟩) restTree)
            else
              getDirectoryStructure ig dirPath parentPath rest) := by
  conv_lhs => rw [getDirectoryStructure.eq_def]

theorem readAllFiles_nil (ig : String → Bool) (parentPath : String) (ws cm : Bool) :
    readAllFiles ig parentPath ws cm .nil = .ok "" := rfl

theorem readAllFiles_cons (ig : String → Bool) (parentPath item : String) (ws cm : Bool)
    (node : FSNode) (rest : FSEntries) :
    readAllFiles ig parentPath ws cm (.cons item node rest) =
      (if ig (joinPath parentPath item) then
        readAllFiles ig parentPath ws cm rest
      else
        match node with
        | .dir stats entries =>
          match stats with
          | none => .error "stat"
          | some _ =>
            match entries with
            | none => .error "readdir"
            | some sub => do
              let subText ← readAllFiles ig (joinPath parentPath item) ws cm sub
              let restText ← readAllFiles ig parentPath ws cm rest
              .ok (subText ++ restText)
        | .file stats bytes text =>
          match stats with
          | none => .error "stat"
          | some _ =>
            if shouldProcessFile item then
              match bytes with
              | none => .error "read"
              | some bs =>
                if isBinaryFile bs then
                  readAllFiles ig parentPath ws cm rest
                else do
                  let restText ← readAllFiles ig parentPath ws cm rest
                  .ok ("File: " ++ item ++ "\n" ++ "Path: " ++ joinPath parentPath item
                    ++ "\n\n" ++ processFileContent ws cm item text ++ "\n\n" ++ restText)
            else
              readAllFiles ig parentPath ws cm rest) := by
  conv_lhs => rw [readAllFiles.eq_def]

theorem specKept_nil (ig : String → Bool) (dirPath parentPath : String) :
    specKept ig dirPath parentPath .nil = [] := rfl

theorem specKept_cons (ig : String → Bool) (dirPath parentPath item : String)
    (node : FSNode) (rest : FSEntries) :
    specKept ig dirPath parentPath (.cons item node rest) =
      (if ig (joinPath parentPath item) then specKept ig dirPath parentPath rest
      else
        match node with
        | .dir _ entries =>
          (match entries with
            | some sub => specKept ig (joinPath dirPath item) (joinPath parentPath item) sub
            | none => []) ++ specKept ig dirPath parentPath rest
        | .file stats bytes text =>
          match stats, bytes with
          | some st, some bs =>
            if shouldProcessFile item && !isBinaryFile bs then
              (⟨item, joinPath parentPath item, joinPath dirPath item, st.size, st.mtime,
                text⟩ : KeptFile) :: specKept ig dirPath parentPath rest
            else specKept ig dirPath parentPath rest
          | _, _ => specKept ig dirPath parentPath rest) := by
  conv_lhs => rw [specKept.eq_def]

/- The FileEntries of a tree in traversal (insertion) order. -/
mutual
def flattenNode (name : String) : DirNode → List (String × FileEntry)
  | .file e => [(name, e)]
  | .dir cs => flattenEntries cs
def flattenEntries : DirEntries → List (String × FileEntry)
  | .nil => []
  | .cons k n rest => flattenNode k n ++ flattenEntries rest
end

/-- The `FileEntry` the structure pass attaches for a kept file. -/
def entryOf (f : KeptFile) : FileEntry := ⟨f.path, f.rel, f.size, f.mtime⟩

/-- The text block the content pass emits for a kept file. -/
def blockOf (removeWhitespaceSetting removeCommentsSetting : Bool) (f : KeptFile) : String :=
  "File: " ++ f.name ++ "\n" ++ "Path: " ++ f.rel ++ "\n\n"
    ++ processFileContent removeWhitespaceSetting removeCommentsSetting f.name f.text ++ "\n\n"

/-- Concatenation of the blocks of a kept-file list. -/
def concatBlocks (removeWhitespaceSetting removeCommentsSetting : Bool) :
    List KeptFile → String
  | [] => ""
  | f :: rest => blockOf removeWhitespaceSetting removeCommentsSetting f
      ++ concatBlocks removeWhitespaceSetting removeCommentsSetting rest

theorem exceptBind_ok {α β : Type} (a : α) (f : α → Except String β) :
    (Except.ok a >>= f) = f a := rfl

theorem concatBlocks_append (ws cm : Bool) (l1 l2 : List KeptFile) :
    concatBlocks ws cm (l1 ++ l2) = concatBlocks ws cm l1 ++ concatBlocks ws cm l2 := by
  induction l1 with
  | nil => simp [concatBlocks]
  | cons f fs ih => simp [concatBlocks, ih, String.append_assoc]

/-- **C1**: for every filesystem tree, ignore predicate, directory read
order and settings, whenever both passes succeed, the structure pass and
the content pass keep exactly the same files in the same order: the
FileEntries of the tree, flattened in traversal (insertion) order, and
the concatenated text blocks are both images of one common filtered file
list (`specKept`, which applies the shared ignore/extension/binary
filter).  In particular a file appears as a FileEntry iff its block
appears in the output, and the orders coincide. -/
theorem claim1_structure_content_consistency (ig : String → Bool) (ws cm : Bool) :
    ∀ (es : FSEntries) (dirPath parentPath : String) (t : DirEntries) (s : String),
      getDirectoryStructure ig dirPath parentPath es = .ok t →
      readAllFiles ig parentPath ws cm es = .ok s →
      flattenEntries t = (specKept ig dirPath parentPath es).map (fun f => (f.name, entryOf f))
        ∧ s = concatBlocks ws cm (specKept ig dirPath parentPath es)
  | .nil, dirPath, parentPath, t, s, ht, hs => by
    rw [getDirectoryStructure_nil] at ht
    rw [readAllFiles_nil] at hs
    cases ht
    cases hs
    simp [flattenEntries, specKept_nil, concatBlocks]
  | .cons item node rest, dirPath, parentPath, t, s, ht, hs => by
    rw [getDirectoryStructure_cons] at ht
    rw [readAllFiles_cons] at hs
    rw [specKept_cons]
    by_cases hig : ig (joinPath parentPath item) = true
    · simp only [hig, if_true] at ht hs ⊢
      exact claim1_structure_content_consistency ig ws cm rest dirPath parentPath t s ht hs
    · rw [Bool.not_eq_true] at hig
      simp only [hig, Bool.false_eq_true, if_false] at ht hs ⊢
      match node with
      | .dir stats entries =>
        match stats with
        | none => exact Except.noConfusion ht
        | some st =>
          match entries with
          | none => exact Except.noConfusion ht
          | some sub =>
            dsimp only at ht hs
            cases hsub : getDirectoryStructure ig (joinPath dirPath item)
                (joinPath parentPath item) sub with
            | error e =>
              rw [hsub] at ht
              exact Except.noConfusion ht
            | ok subTree =>
              cases hrest : getDirectoryStructure ig dirPath parentPath rest with
              | error e =>
                rw [hsub, hrest] at ht
                rw [exceptBind_ok] at ht
                exact Except.noConfusion ht
              | ok restTree =>
                cases hsubT : readAllFiles ig (joinPath parentPath item) ws cm sub with
                | error e =>
                  rw [hsubT] at hs
                  exact Except.noConfusion hs
                | ok subText =>
                  cases hrestT : readAllFiles ig parentPath ws cm rest with
                  | error e =>
                    rw [hsubT, hrestT] at hs
                    rw [exceptBind_ok] at hs
                    exact Except.noConfusion hs
                  | ok restText =>
                    rw [hsub, hrest] at ht
                    rw [hsubT, hrestT] at hs
                    simp only [exceptBind_ok, Except.ok.injEq] at ht hs
                    subst ht
                    subst hs
                    have h1 := claim1_structure_content_consistency ig ws cm sub (joinPath dirPath item)
                      (joinPath parentPath item) subTree subText hsub hsubT
                    have h2 := claim1_structure_content_consistency ig ws cm rest dirPath parentPath
                      restTree restText hrest hrestT
                    constructor
                    · rw [flattenEntries, flattenNode, h1.1, h2.1, ← List.map_append]
                    · rw [h1.2, h2.2, concatBlocks_append]
      | .file stats bytes text =>
        match stats with
        | none => exact Except.noConfusion ht
        | some st =>
          dsimp only at ht hs
          by_cases hsp : shouldProcessFile item = true
          · simp only [hsp, if_true] at ht hs ⊢
            match bytes with
            | none => exact Except.noConfusion ht
            | some bs =>
              by_cases hbin : isBinaryFile bs = true
              · simp only [hbin, if_true, Bool.not_true, Bool.and_false,
                  Bool.false_eq_true, if_false] at ht hs ⊢
                exact claim1_structure_content_consistency ig ws cm rest dirPath parentPath t s ht hs
              · rw [Bool.not_eq_true] at hbin
                simp only [hbin, Bool.false_eq_true, if_false, Bool.not_false,
                  Bool.and_true, hsp, if_true] at ht hs ⊢
                cases hrest : getDirectoryStructure ig dirPath parentPath rest with
                | error e =>
                  rw [hrest] at ht
                  exact Except.noConfusion ht
                | ok restTree =>
                  cases hrestT : readAllFiles ig parentPath ws cm rest with
                  | error e =>
                    rw [hrestT] at hs
                    exact Except.noConfusion hs
                  | ok restText =>
                    rw [hrest] at ht
                    rw [hrestT] at hs
                    simp only [exceptBind_ok, Except.ok.injEq] at ht hs
                    subst ht
                    subst hs
                    have h2 := claim1_structure_content_consistency ig ws cm rest dirPath parentPath
                      restTree restText hrest hrestT
                    constructor
                    · rw [flattenEntries, flattenNode, h2.1]
                      rfl
                    · rw [h2.2]
                      rfl
          · rw [Bool.not_eq_true] at hsp
            simp only [hsp, Bool.false_eq_true, if_false] at ht hs
            cases bytes with
            | none => exact claim1_structure_content_consistency ig ws cm rest dirPath parentPath t s ht hs
            | some bs =>
              simp only [hsp, Bool.false_and, Bool.false_eq_true, if_false]
              exact claim1_structure_content_consistency ig ws cm rest dirPath parentPath t s ht hs

/-- The children of a directory object as a list in insertion order. -/
def dirToList : DirEntries → List (String × DirNode)
  | .nil => []
  | .cons k n rest => (k, n) :: dirToList rest

/-- Numeric value of a digit-string key. -/
def keyToNat (s : String) : Nat :=
  s.data.foldl (fun a c => 10 * a + (c.toNat - 48)) 0

/-- Whether a property key is an ECMAScript array index: a canonical
digit string (no leading zero except `\"0\"`) with value below
`2^32 - 1`.  `for...in` enumerates these first, in ascending order. -/
def isArrayIndex (s : String) : Bool :=
  match s.data with
  | [] => false
  | c :: rest => (c :: rest).all Char.isDigit && (c ≠ '0' || rest.isEmpty)
      && keyToNat s < 4294967295

/-- Insertion into a list sorted ascending by numeric key value. -/
def insertAsc (p : String × DirNode) : List (String × DirNode) → List (String × DirNode)
  | [] => [p]
  | q :: rest => if keyToNat p.1 ≤ keyToNat q.1 then p :: q :: rest else q :: insertAsc p rest

/-- Insertion sort ascending by numeric key value (array-index keys are
distinct, so stability is irrelevant). -/
def sortAsc : List (String × DirNode) → List (String × DirNode)
  | [] => []
  | p :: rest => insertAsc p (sortAsc rest)

/-- The `for...in` enumeration order over a plain object's own keys:
array-index keys ascending first, then the rest in insertion order. -/
def jsEnumOrder (cs : List (String × DirNode)) : List (String × DirNode) :=
  sortAsc (cs.filter (fun p => isArrayIndex p.1)) ++ cs.filter (fun p => !isArrayIndex p.1)

/- Nesting depth, bounding the recursion of the formatter. -/
mutual
def nodeDepth : DirNode → Nat
  | .file _ => 1
  | .dir cs => entriesDepth cs + 1
def entriesDepth : DirEntries → Nat
  | .nil => 0
  | .cons _ n rest => max (nodeDepth n) (entriesDepth rest)
end

/-- Property access `obj[k]` on a directory object. -/
def jsGet (cs : DirEntries) (k : String) : Option DirNode :=
  ((dirToList cs).find? (fun p => p.1 == k)).map (fun p => p.2)

/-- The `'k' in obj` test on a directory object. -/
def hasKey (cs : DirEntries) (k : String) : Bool := (jsGet cs k).isSome

/-- JS template-string coercion of a destructured property: a missing
property is `undefined`, and any of these objects renders as
`[object Object]`. -/
def jsShowOpt : Option DirNode → String
  | none => "undefined"
  | some _ => "[object Object]"

/-- `' '.repeat(indent)` (line 248). -/
def indentString (indent : Nat) : String := String.mk (List.replicate indent ' ')

/-- The file line of `formatStructure` (line 254). -/
def renderFileLine (indent : Nat) (key pathStr sizeStr lastModifiedStr : String) : String :=
  indentString indent ++ key ++ " (Path: " ++ pathStr ++ ", Size: " ++ sizeStr
    ++ " bytes, Last Modified: " ++ lastModifiedStr ++ ")\n"

/-- `formatStructure` (lines 246-263) with an explicit depth budget:
iterate the children in `for...in` order; a `FileEntry` value renders as
a file line; a directory value containing a child named `relativePath`
also passes the duck-typing test and renders as a file line with
JS-coerced fields; any other directory renders as `<name>/` and recurses
with the indent increased by 2. -/
def formatStructureFuel : Nat → DirEntries → Nat → String
  | 0, _, _ => ""
  | fuel + 1, cs, indent =>
    String.join ((jsEnumOrder (dirToList cs)).map (fun p =>
      match p with
      | (key, .file e) =>
        renderFileLine indent key e.relativePath (toString e.size) e.lastModified
      | (key, .dir sub) =>
        if hasKey sub "relativePath" then
          renderFileLine indent key (jsShowOpt (jsGet sub "relativePath"))
            (jsShowOpt (jsGet sub "size")) (jsShowOpt (jsGet sub "lastModified"))
        else
          indentString indent ++ key ++ "/\n" ++ formatStructureFuel fuel sub (indent + 2)))

/-- `formatStructure`, instantiating the budget with the tree depth
(irrelevant by `formatStructureFuel_congr`). -/
def formatStructure (cs : DirEntries) (indent : Nat) : String :=
  formatStructureFuel (entriesDepth cs) cs indent

theorem mem_insertAsc (p x : String × DirNode) :
    ∀ (l : List (String × DirNode)), x ∈ insertAsc p l → x = p ∨ x ∈ l
  | [], h => by
    rw [insertAsc] at h
    rcases List.mem_singleton.mp h with rfl
    exact Or.inl rfl
  | q :: rest, h => by
    rw [insertAsc] at h
    split at h
    · rcases List.mem_cons.mp h with rfl | h2
      · exact Or.inl rfl
      · exact Or.inr h2
    · rcases List.mem_cons.mp h with rfl | h2
      · exact Or.inr (List.mem_cons_self _ _)
      · rcases mem_insertAsc p x rest h2 with h3 | h3
        · exact Or.inl h3
        · exact Or.inr (List.mem_cons_of_mem _ h3)

theorem mem_sortAsc (x : String × DirNode) :
    ∀ (l : List (String × DirNode)), x ∈ sortAsc l → x ∈ l
  | [], h => by rw [sortAsc] at h; cases h
  | p :: rest, h => by
    rw [sortAsc] at h
    rcases mem_insertAsc p x (sortAsc rest) h with rfl | h2
    · exact List.mem_cons_self _ _
    · exact List.mem_cons_of_mem _ (mem_sortAsc x rest h2)

theorem mem_jsEnumOrder (x : String × DirNode) (l : List (String × DirNode))
    (h : x ∈ jsEnumOrder l) : x ∈ l := by
  rw [jsEnumOrder] at h
  rcases List.mem_append.mp h with h1 | h2
  · exact List.mem_of_mem_filter (mem_sortAsc x _ h1)
  · exact List.mem_of_mem_filter h2

theorem mem_dirToList_depth (k : String) (n : DirNode) :
    ∀ (cs : DirEntries), (k, n) ∈ dirToList cs → nodeDepth n ≤ entriesDepth cs
  | .nil, h => by rw [dirToList] at h; cases h
  | .cons k2 n2 rest, h => by
    rw [dirToList] at h
    rw [entriesDepth]
    rcases List.mem_cons.mp h with heq | h2
    · cases heq
      exact Nat.le_max_left _ _
    · exact Nat.le_trans (mem_dirToList_depth k n rest h2) (Nat.le_max_right _ _)

theorem entriesDepth_eq_zero (cs : DirEntries) (h : entriesDepth cs = 0) : cs = .nil := by
  cases cs with
  | nil => rfl
  | cons k n rest =>
    rw [entriesDepth] at h
    cases n with
    | file e => rw [nodeDepth] at h; omega
    | dir sub => rw [nodeDepth] at h; omega

theorem formatStructureFuel_congr :
    ∀ (fuel : Nat) (cs : DirEntries) (indent : Nat), entriesDepth cs ≤ fuel →
      formatStructureFuel fuel cs indent = formatStructure cs indent := by
  intro fuel
  induction fuel using Nat.strong_induction_on with
  | _ fuel ih =>
    intro cs indent hle
    cases fuel with
    | zero =>
      have := entriesDepth_eq_zero cs (Nat.le_zero.mp hle)
      subst this
      rfl
    | succ fuel =>
      rw [formatStructure]
      cases hd : entriesDepth cs with
      | zero =>
        have := entriesDepth_eq_zero cs hd
        subst this
        rfl
      | succ d =>
        rw [formatStructureFuel, formatStructureFuel]
        congr 1
        apply List.map_congr_left
        intro p hp
        match p with
        | (key, .file e) => rfl
        | (key, .dir sub) =>
          by_cases hk : hasKey sub "relativePath" = true
          · simp only [hk, if_true]
          · simp only [hk, Bool.false_eq_true, if_false]
            have hsub : nodeDepth (.dir sub) ≤ entriesDepth cs :=
              mem_dirToList_depth key _ cs (mem_jsEnumOrder _ _ hp)
            rw [nodeDepth] at hsub
            rw [hd] at hsub
            have h1 : entriesDepth sub ≤ fuel := by omega
            have h2 : entriesDepth sub ≤ d := by omega
            rw [ih fuel (Nat.lt_succ_self _) sub (indent + 2) h1,
              ih d (by omega) sub (indent + 2) h2]

theorem formatStructure_unfold (cs : DirEntries) (indent : Nat) :
    formatStructure cs indent =
      String.join ((jsEnumOrder (dirToList cs)).map (fun p =>
        match p with
        | (key, .file e) =>
          renderFileLine indent key e.relativePath (toString e.size) e.lastModified
        | (key, .dir sub) =>
          if hasKey sub "relativePath" then
            renderFileLine indent key (jsShowOpt (jsGet sub "relativePath"))
              (jsShowOpt (jsGet sub "size")) (jsShowOpt (jsGet sub "lastModified"))
          else
            indentString indent ++ key ++ "/\n" ++ formatStructure sub (indent + 2))) := by
  rw [formatStructure]
  cases hd : entriesDepth cs with
  | zero =>
    have := entriesDepth_eq_zero cs hd
    subst this
    rfl
  | succ d =>
    rw [formatStructureFuel]
    congr 1
    apply List.map_congr_left
    intro p hp
    match p with
    | (key, .file e) => rfl
    | (key, .dir sub) =>
      by_cases hk : hasKey sub "relativePath" = true
      · simp only [hk, if_true]
      · simp only [hk, Bool.false_eq_true, if_false]
        have hsub : nodeDepth (.dir sub) ≤ entriesDepth cs :=
          mem_dirToList_depth key _ cs (mem_jsEnumOrder _ _ hp)
        rw [nodeDepth] at hsub
        rw [hd] at hsub
        rw [formatStructureFuel_congr d sub (indent + 2) (by omega)]

/-- Observable outcome of one run: the content written to `output.txt`
(if any), the reported error message (if any), and the process exit
code. -/
structure MainResult where
  written : Option String
  errMsg : Option String
  exitCode : Nat

/-- The try/catch block of lines 269-301: build the structure, format
it, read all contents, and only then write the combined output; any
exception lands in the catch block, which logs
`Error processing directory: <message>` and writes nothing.  No branch
calls `process.exit` or sets `process.exitCode`, so the process always
exits with Node's default code `0`.  `root = none` models an unreadable
target directory (the root `readdirSync` throws). -/
def runMain (ig : String → Bool) (targetDir : String) (root : Option FSEntries)
    (removeWhitespaceSetting removeCommentsSetting : Bool) : MainResult :=
  match (do
    let items ← match root with
      | none => Except.error "readdir"
      | some es => Except.ok es
    let fileStructure ← getDirectoryStructure ig targetDir "" items
    let structureText := formatStructure fileStructure 0
    let filesText ← readAllFiles ig "" removeWhitespaceSetting removeCommentsSetting items
    Except.ok ("Directory Structure:\n" ++ structureText ++ "\nFile Contents:\n" ++ filesText)
    : Except String String) with
  | .ok finalOutput => ⟨some finalOutput, none, 0⟩
  | .error e => ⟨none, some ("Error processing directory: " ++ e), 0⟩

theorem runMain_none (ig : String → Bool) (targetDir : String) (ws cm : Bool) :
    runMain ig targetDir none ws cm
      = ⟨none, some ("Error processing directory: " ++ "readdir"), 0⟩ := rfl

theorem runMain_some (ig : String → Bool) (targetDir : String) (es : FSEntries) (ws cm : Bool) :
    runMain ig targetDir (some es) ws cm
      = (match getDirectoryStructure ig targetDir "" es with
        | .error e => ⟨none, some ("Error processing directory: " ++ e), 0⟩
        | .ok t =>
          match readAllFiles ig "" ws cm es with
          | .error e => ⟨none, some ("Error processing directory: " ++ e), 0⟩
          | .ok s =>
            ⟨some ("Directory Structure:\n" ++ formatStructure t 0
              ++ "\nFile Contents:\n" ++ s), none, 0⟩) := by
  rw [runMain]
  dsimp only
  rw [exceptBind_ok]
  cases getDirectoryStructure ig targetDir "" es with
  | error e => rfl
  | ok t =>
    rw [exceptBind_ok]
    cases readAllFiles ig "" ws cm es with
    | error e => rfl
    | ok s => rfl

/-- **C2 (amended)**: on any traversal-time error the whole run aborts
with no output file written (not even a partial one) and an error
message reported, and `output.txt` is produced only after both the
structure pass and the content pass complete successfully — but the
process then finishes normally with exit code `0` (the source's catch
block only logs; it neither rethrows nor sets `process.exitCode`). -/
theorem claim2_error_handling_amended (ig : String → Bool) (targetDir : String) (root : Option FSEntries)
    (ws cm : Bool) :
    (runMain ig targetDir root ws cm).exitCode = 0
      ∧ (∀ out, (runMain ig targetDir root ws cm).written = some out →
          ∃ es t s, root = some es
            ∧ getDirectoryStructure ig targetDir "" es = .ok t
            ∧ readAllFiles ig "" ws cm es = .ok s
            ∧ out = "Directory Structure:\n" ++ formatStructure t 0
                ++ "\nFile Contents:\n" ++ s
            ∧ (runMain ig targetDir root ws cm).errMsg = none)
      ∧ ((runMain ig targetDir root ws cm).written = none
          ↔ (runMain ig targetDir root ws cm).errMsg.isSome) := by
  cases root with
  | none =>
    rw [runMain_none]
    refine ⟨rfl, ?_, by simp⟩
    intro out hout
    simp at hout
  | some es =>
    rw [runMain_some]
    cases hgt : getDirectoryStructure ig targetDir "" es with
    | error e =>
      refine ⟨rfl, ?_, by simp⟩
      intro out hout
      simp at hout
    | ok t =>
      cases hra : readAllFiles ig "" ws cm es with
      | error e =>
        refine ⟨rfl, ?_, by simp⟩
        intro out hout
        simp at hout
      | ok s =>
        refine ⟨rfl, ?_, by simp⟩
        intro out hout
        simp only [Option.some.injEq] at hout
        exact ⟨es, t, s, rfl, hgt, hra, hout.symm, rfl⟩

/-- A sample `FileEntry` for the C8 trees. -/
def fe1 : FileEntry := ⟨"/r/a", "a", 5, "M"⟩

/-- A small concrete filesystem: a text file and a subdirectory with one
text file. -/
def c1fs : FSEntries :=
  .cons "a.txt" (.file (some ⟨5, "M"⟩) (some [104, 105]) "hi")
    (.cons "sub" (.dir (some ⟨0, "M"⟩)
      (some (.cons "b.txt" (.file (some ⟨7, "N"⟩) (some [119]) "w") .nil))) .nil)

/-- The tree the structure pass builds from `c1fs` (root `\"r\"`). -/
def c1tree : DirEntries :=
  .cons "a.txt" (.file ⟨"r/a.txt", "a.txt", 5, "M"⟩)
    (.cons "sub" (.dir (.cons "b.txt" (.file ⟨"r/sub/b.txt", "sub/b.txt", 7, "N"⟩) .nil)) .nil)

theorem claim1_structure_content_consistency_witness :
    flattenEntries c1tree
        = (specKept (fun _ => false) "r" "" c1fs).map (fun f => (f.name, entryOf f))
      ∧ ("File: a.txt\nPath: a.txt\n\nhi\n\nFile: b.txt\nPath: sub/b.txt\n\nw\n\n" : String)
          = concatBlocks false false (specKept (fun _ => false) "r" "" c1fs) :=
  claim1_structure_content_consistency (fun _ => false) false false c1fs "r" "" c1tree
    "File: a.txt\nPath: a.txt\n\nhi\n\nFile: b.txt\nPath: sub/b.txt\n\nw\n\n" rfl rfl

/-- A filesystem whose subdirectory `d` has an unreadable listing. -/
def badFS : FSEntries := .cons "d" (.dir (some ⟨0, "T"⟩) none) .nil

/-- **C2 counterexample**: on a run whose traversal hits an unreadable
directory, the error is reported and no output is written, but the
process exit code is `0`, not non-zero: the catch block at lines 299-301
only logs the message and never sets a non-zero exit code, so the claim
"the process exits non-zero" is false. -/
theorem claim2_counterexample :
    (runMain (fun _ => false) "/r" (some badFS) false false).errMsg
        = some ("Error processing directory: " ++ "readdir")
      ∧ (runMain (fun _ => false) "/r" (some badFS) false false).written = none
      ∧ (runMain (fun _ => false) "/r" (some badFS) false false).exitCode = 0 :=
  ⟨rfl, rfl, rfl⟩

theorem claim2_error_handling_amended_witness :
    ∃ es t s, (some c1fs) = some es
      ∧ getDirectoryStructure (fun _ => false) "/r" "" es = .ok t
      ∧ readAllFiles (fun _ => false) "" false false es = .ok s
      ∧ ("Directory Structure:\n"
          ++ formatStructure (.cons "a.txt" (.file ⟨"/r/a.txt", "a.txt", 5, "M"⟩)
            (.cons "sub" (.dir (.cons "b.txt"
              (.file ⟨"/r/sub/b.txt", "sub/b.txt", 7, "N"⟩) .nil)) .nil)) 0
          ++ "\nFile Contents:\nFile: a.txt\nPath: a.txt\n\nhi\n\nFile: b.txt\nPath: sub/b.txt\n\nw\n\n" : String)
          = "Directory Structure:\n" ++ formatStructure t 0 ++ "\nFile Contents:\n" ++ s
      ∧ (runMain (fun _ => false) "/r" (some c1fs) false false).errMsg = none :=
  (claim2_error_handling_amended (fun _ => false) "/r" (some c1fs) false false).2.1 _ rfl

/-- A tree whose directory `d` contains a child named `relativePath`. -/
def c8dup : DirEntries := .cons "d" (.dir (.cons "relativePath" (.file fe1) .nil)) .nil

/-- A tree with integer-like names inserted as `\"10\"` then `\"2\"`. -/
def c8num : DirEntries := .cons "10" (.file fe1) (.cons "2" (.file fe1) .nil)

/-- **C8 counterexample**: `formatStructure` does not always render a
nested DirectoryNode child as `<name>/` + recursion, and does not iterate
children in insertion order.  A directory containing a child named
`relativePath` passes the duck-typing test
`typeof v === 'object' && 'relativePath' in v` and is rendered as a file
line with JS-coerced garbage fields; and `for...in` enumerates
integer-like keys (`"2"`, `"10"`) in ascending numeric order ahead of
insertion order. -/
theorem claim8_counterexample :
    formatStructure c8dup 0
        = "d (Path: [object Object], Size: undefined bytes, Last Modified: undefined)\n"
      ∧ formatStructure c8dup 0
          ≠ "d/\n" ++ formatStructure (.cons "relativePath" (.file fe1) .nil) 2
      ∧ formatStructure c8num 0
          = "2 (Path: a, Size: 5 bytes, Last Modified: M)\n10 (Path: a, Size: 5 bytes, Last Modified: M)\n"
      ∧ formatStructure c8num 0
          ≠ "10 (Path: a, Size: 5 bytes, Last Modified: M)\n2 (Path: a, Size: 5 bytes, Last Modified: M)\n" :=
  ⟨rfl, by decide, rfl, by decide⟩

/-- **C8 (amended)**: `formatStructure` renders each FileEntry child as
the line `<name> (Path: <relativePath>, Size: <bytes> bytes, Last
Modified: <timestamp>)`, and each nested DirectoryNode child that does
not itself contain a child named `relativePath` as `<name>/` followed by
its children with the indent increased by 2 (a DirectoryNode with such a
child is rendered as a file line with JS-coerced fields); children are
iterated in JS object enumeration order — integer-like names first in
ascending numeric order, then the rest in insertion order — which equals
insertion order when no child name is integer-like. -/
theorem claim8_formatStructure_amended :
    (∀ (cs : DirEntries) (indent : Nat),
      formatStructure cs indent =
        String.join ((jsEnumOrder (dirToList cs)).map (fun p =>
          match p with
          | (key, .file e) =>
            renderFileLine indent key e.relativePath (toString e.size) e.lastModified
          | (key, .dir sub) =>
            if hasKey sub "relativePath" then
              renderFileLine indent key (jsShowOpt (jsGet sub "relativePath"))
                (jsShowOpt (jsGet sub "size")) (jsShowOpt (jsGet sub "lastModified"))
            else
              indentString indent ++ key ++ "/\n" ++ formatStructure sub (indent + 2))))
    ∧ (∀ (l : List (String × DirNode)), (∀ p ∈ l, isArrayIndex p.1 = false) →
        jsEnumOrder l = l) := by
  constructor
  · exact formatStructure_unfold
  · intro l hl
    rw [jsEnumOrder]
    have h1 : l.filter (fun p => isArrayIndex p.1) = [] := by
      rw [List.filter_eq_nil_iff]
      intro p hp
      simp [hl p hp]
    have h2 : l.filter (fun p => !isArrayIndex p.1) = l := by
      rw [List.filter_eq_self]
      intro p hp
      simp [hl p hp]
    rw [h1, h2]
    rfl

theorem claim8_formatStructure_amended_witness :
    jsEnumOrder [("a", DirNode.file fe1)] = [("a", DirNode.file fe1)] :=
  claim8_formatStructure_amended.2 [("a", DirNode.file fe1)]
    (by
      intro p hp
      rcases List.mem_singleton.mp hp with rfl
      decide)

end CtxTool
